import Mathlib

/-!
# Verification of the CodeQuest testing harness (test_cq.py)

A shallow embedding of the harness in `test_cq.py`:

* Discovery (`get_cq_files`), Grouping (`group_cq_files`),
  Orchestrator (`create_test_funcs`, `main`) are modeled as pure functions
  over a directory listing, with Python exceptions as `Except` errors.
* The Verifier (`check_solution`) is modeled as a pure function of the file
  paths, the file contents and the captured output of the solution process
  (which is an opaque external program).
* The line diff it relies on (`difflib.Differ().compare`) is embedded in
  full: `SequenceMatcher` (`find_longest_match` with the autojunk purge,
  matching blocks, opcodes, the three ratio functions) and `Differ`
  (`_dump`, `_plain_replace`, `_fancy_replace`, `_fancy_helper`,
  `_qformat`).  Python floats are modeled by exact rationals; the cutoffs
  0.74 / 0.75 and every ratio arising in the statements below are exactly
  representable, so no comparison in this development is sensitive to the
  difference.
-/

namespace CQ

/-! ## String helpers (Python `str` methods, code-point semantics) -/

/-- Python string comparison is lexicographic on code points. -/
def charLtB (c d : Char) : Bool := c.toNat < d.toNat

/-- Lexicographic strict order on char lists, as Python compares `str`. -/
def lexLtB : List Char → List Char → Bool
  | [], [] => false
  | [], _ :: _ => true
  | _ :: _, [] => false
  | c :: cs, d :: ds => if c.toNat < d.toNat then true
      else if d.toNat < c.toNat then false else lexLtB cs ds

/-- Python `a <= b` on strings: lexicographic, code points. -/
def pyStrLeB (a b : String) : Bool := !(lexLtB b.data a.data)

/-- `l.isPrefixOf s` for char lists, written out so that it unfolds well. -/
def leadsWith : List Char → List Char → Bool
  | [], _ => true
  | _ :: _, [] => false
  | p :: ps, c :: cs => p = c && leadsWith ps cs

/-- Python `s.startswith(p)`. -/
def pyStartsWith (s p : String) : Bool := leadsWith p.data s.data

/-- All-occurrence replacement on char lists (Python `str.replace` with a
nonempty pattern; the harness only ever replaces `"in"`, `" "`).  `fuel`
only bounds the recursion: every step strictly shortens the text, so
`s.length + 1` is never exhausted. -/
def replaceAllF : Nat → List Char → List Char → List Char → List Char
  | 0, s, _, _ => s
  | fuel + 1, s, pat, rep =>
    match s with
    | [] => []
    | c :: cs =>
      if pat ≠ [] ∧ leadsWith pat (c :: cs) then
        rep ++ replaceAllF fuel ((c :: cs).drop pat.length) pat rep
      else
        c :: replaceAllF fuel cs pat rep

/-- Python `s.replace(pat, rep)` (nonempty `pat`). -/
def pyReplace (s pat rep : String) : String :=
  String.mk (replaceAllF (s.data.length + 1) s.data pat.data rep.data)

/-- Python `s.replace('\r', '')`: every carriage return is removed. -/
def stripCR (s : String) : String := String.mk (s.data.filter (fun c => c ≠ '\r'))

/-- Helper for `splitlines(True)`: split after each newline, keeping it;
`acc` is the current (reversed) partial line. -/
def splitKeepAux : List Char → List Char → List (List Char)
  | [], acc => if acc = [] then [] else [acc.reverse]
  | c :: cs, acc =>
    if c = '\n' then (c :: acc).reverse :: splitKeepAux cs []
    else splitKeepAux cs (c :: acc)

/-- Python `s.splitlines(True)` after carriage returns were removed: the
only remaining line boundary is `'\n'`, and each line keeps it. -/
def splitlinesKeep (s : String) : List String :=
  (splitKeepAux s.data []).map String.mk

/-- The normalization `check_solution` applies to file contents and to the
captured output: `read().replace('\r', '').splitlines(True)`. -/
def normalize (s : String) : List String := splitlinesKeep (stripCR s)

/-! ## Path helpers (`os.path`, POSIX rules) -/

/-- `os.path.basename`: the part after the last `'/'`. -/
def basename (p : String) : String :=
  String.mk ((p.data.reverse.takeWhile (fun c => c ≠ '/')).reverse)

/-- `os.path.dirname`: everything before the last `'/'`; trailing slashes
are stripped unless the head consists only of slashes. -/
def dirname (p : String) : String :=
  let head := (p.data.reverse.dropWhile (fun c => c ≠ '/')).reverse
  if head = [] ∨ head.all (fun c => c = '/') then String.mk head
  else String.mk ((head.reverse.dropWhile (fun c => c = '/')).reverse)

/-- Python slice `l[lo:hi]` on a list (clamping, as Python does). -/
def pySlice (l : List Char) (lo hi : Nat) : List Char := (l.drop lo).take (hi - lo)

/-! ## Python `int()` on the sliced problem-number field

`int(s)` for a string of decimal digits; any other shape that the harness
can produce from slicing a filename (`""`, letters, dots) raises
`ValueError`.  (Python `int` additionally accepts signs and surrounding
whitespace, which cannot occur in a two-character slice of interest; the
model rejects them, and no claim depends on such inputs.) -/

inductive PyError where
  | osError
  | valueError
  deriving DecidableEq, Repr

def digitVal (c : Char) : Nat := c.toNat - 48

def pyInt (s : String) : Except PyError Nat :=
  if s.data ≠ [] ∧ s.data.all Char.isDigit then
    .ok (s.data.foldl (fun acc c => 10 * acc + digitVal c) 0)
  else .error .valueError

/-! ## Discovery: `get_cq_files`

`REGEX_PATTERN = "Prob[0-9]{2}\.((in|out)\.txt|py)"` used through
`re.match`, which anchors at the start of the name only: the pattern has to
match a PREFIX of the filename, nothing constrains what follows. -/

/-- `re.match(REGEX_PATTERN, s) is not None`. -/
def cqRegexAccepts (s : String) : Bool :=
  match s.data with
  | 'P' :: 'r' :: 'o' :: 'b' :: d1 :: d2 :: '.' :: rest =>
    d1.isDigit && d2.isDigit &&
      (leadsWith "in.txt".data rest || leadsWith "out.txt".data rest ||
        leadsWith "py".data rest)
  | _ => false

/-- The naming convention exactly as the spec words it: `Prob##.in.txt`,
`Prob##.out.txt` or `Prob##.py` where `##` is exactly two decimal digits
and nothing follows.  This definition follows the spec's words (not the
code) and exists to be compared with what `cqRegexAccepts` does. -/
def specExactCqName (s : String) : Bool :=
  match s.data with
  | 'P' :: 'r' :: 'o' :: 'b' :: d1 :: d2 :: '.' :: rest =>
    d1.isDigit && d2.isDigit &&
      (decide (rest = "in.txt".data) || decide (rest = "out.txt".data) ||
        decide (rest = "py".data))
  | _ => false

/-- `get_cq_files(target_dir)`.  `pathExists`/`pathIsDir` model
`os.path.exists` / `os.path.isdir` for the target, `listing` models
`os.listdir` (bare entry names, arbitrary order).  The function either
raises `OSError` or returns the matching names; it reads nothing else, so
its result is a pure function of the listing. -/
def get_cq_files (pathExists pathIsDir : Bool) (listing : List String) :
    Except PyError (List String) :=
  if !(pathExists && pathIsDir) then .error .osError
  else .ok (listing.filter cqRegexAccepts)

/-! ## Grouping: `group_cq_files` -/

/-- `os.path.basename(x)[4:6]` followed by `int(...)`. -/
def fileKey (f : String) : Except PyError Nat :=
  pyInt (String.mk (pySlice (basename f).data 4 6))

/-- The problem number of a file whose key parses (0 for files whose key
does not parse; only used where `fileKey` is known to succeed). -/
def fileKeyD (f : String) : Nat :=
  match fileKey f with
  | .ok n => n
  | .error _ => 0

/-- One insertion step: `grouped.get(n).append(f)` appends to the existing
entry; on a missing key the bare `except:` branch creates `grouped[n] =
[f]` at the end of the dict. -/
def groupIns (g : List (Nat × List String)) (n : Nat) (f : String) :
    List (Nat × List String) :=
  if (g.lookup n).isSome then
    g.map (fun p => if p.1 = n then (p.1, p.2 ++ [f]) else p)
  else g ++ [(n, [f])]

/-- The file list a grouped dictionary holds under key `n` (empty when the
key is absent). -/
def lookupVal (n : Nat) (g : List (Nat × List String)) : List String :=
  (g.lookup n).getD []

/-- `group_cq_files(cq_files)`: a dict from problem number to the list of
its files, in insertion order (modeled as an association list whose keys
are unique). -/
def group_cq_files (files : List String) : Except PyError (List (Nat × List String)) :=
  files.foldlM (fun g f => do
    let n ← fileKey f
    pure (groupIns g n f)) []

/-- The same fold without the monad, usable once every key is known to
parse. -/
def groupPure (g0 : List (Nat × List String)) (files : List String) :
    List (Nat × List String) :=
  files.foldl (fun g f => groupIns g (fileKeyD f) f) g0

/-! ## Orchestrator: `create_test_funcs` and `main` -/

/-- `"{:02d}".format(n)`. -/
def pad2 (n : Nat) : String :=
  if n < 100 then String.mk [Char.ofNat (48 + n / 10), Char.ofNat (48 + n % 10)]
  else toString n

/-- Python `sorted` on a list of strings: the unique stable sort by the
code-point lexicographic order (insertion sort is such a sort). -/
def pySorted (fs : List String) : List String :=
  List.insertionSort (fun a b => pyStrLeB a b = true) fs

/-- `create_test_funcs(grouped)`: one test per group with exactly three
files, named `test_prob{:02d}`, bound to the sorted file list.  Groups of
any other size are skipped. -/
def create_test_funcs (grouped : List (Nat × List String)) :
    List (String × List String) :=
  grouped.filterMap (fun p =>
    if p.2.length = 3 then some ("test_prob" ++ pad2 p.1, pySorted p.2) else none)

/-- The canonical names of problem `n`'s three files. -/
def probStem (n : Nat) : String := "Prob" ++ pad2 n

def inName (n : Nat) : String := probStem n ++ ".in.txt"

def outName (n : Nat) : String := probStem n ++ ".out.txt"

def pyName (n : Nat) : String := probStem n ++ ".py"

/-- A well-formed triple for problem `n`, in role order: input,
expected output, solution. -/
def tripleOf (n : Nat) : List String := [inName n, outName n, pyName n]

/-- `main()` up to handing the test cases to `unittest`: discovery of the
working directory, grouping, test creation. -/
def mainTests (pathExists pathIsDir : Bool) (listing : List String) :
    Except PyError (List (String × List String)) := do
  let files ← get_cq_files pathExists pathIsDir listing
  let grouped ← group_cq_files files
  pure (create_test_funcs grouped)

/-! ## `difflib.SequenceMatcher`

Generic over the element type: the harness uses it on lists of lines
(`String`) in `Differ.compare` and on lists of characters (`Char`) inside
`_fancy_replace`.  Both instantiations pass `isjunk=None` (modeled as the
constantly-false predicate) and leave `autojunk=True`, so the popular-entry
purge of `__chain_b` is active and the junk set `bjunk` is what `isjunk`
describes. -/

namespace SM

variable {α : Type} [DecidableEq α] [Inhabited α]

/-- Number of occurrences of `x` in `b`. -/
def countIn (b : List α) (x : α) : Nat := (b.filter (fun y => y = x)).length

/-- The `autojunk` purge of `__chain_b`: with `len(b) >= 200`, non-junk
elements occurring more than `len(b) // 100 + 1` times are dropped from
`b2j`. -/
def isPopular (isjunk : α → Bool) (b : List α) (x : α) : Bool :=
  decide (200 ≤ b.length) && !isjunk x && decide (b.length / 100 + 1 < countIn b x)

/-- An element with no `b2j` entry: junk, or purged as popular. -/
def purgedB (isjunk : α → Bool) (b : List α) (x : α) : Bool :=
  isjunk x || isPopular isjunk b x

/-- `b2j.get(x, [])` after both purges: the ascending list of positions of
`x` in `b`, or `[]` for junk/popular elements. -/
def b2j (isjunk : α → Bool) (b : List α) (x : α) : List Nat :=
  if purgedB isjunk b x then []
  else (List.range b.length).filter (fun j => b.getD j default = x)

/-- The inner-loop column list of `find_longest_match` for one row: the
`b2j` entries restricted to `[blo, bhi)` (`continue` below `blo`, `break`
at `bhi`; the list is ascending, so that equals a filter). -/
def colsFor (isjunk : α → Bool) (b : List α) (blo bhi : Nat) (x : α) : List Nat :=
  (b2j isjunk b x).filter (fun j => decide (blo ≤ j) && decide (j < bhi))

/-- State of the `find_longest_match` dynamic program: the previous row of
`j2len` (total function, missing keys read as 0, exactly like
`j2len.get(j-1, 0)`), and the best block so far. -/
structure FlmState where
  j2len : Nat → Nat
  besti : Nat
  bestj : Nat
  bestsize : Nat

/-- The best-block update along one row: for each column `j` (ascending),
`k = j2len.get(j-1, 0) + 1` and the best block becomes `(i-k+1, j-k+1, k)`
whenever `k > bestsize`.  (`k ≤ i+1` and `k ≤ j+1` always hold, so the
truncated subtraction agrees with Python.) -/
def rowBest (i : Nat) (kOf : Nat → Nat) (cols : List Nat) (best : Nat × Nat × Nat) :
    Nat × Nat × Nat :=
  cols.foldl
    (fun best j =>
      let k := kOf j
      if best.2.2 < k then (i + 1 - k, j + 1 - k, k) else best)
    best

/-- One row `i` of the dynamic program. -/
def flmRow (isjunk : α → Bool) (a b : List α) (blo bhi i : Nat) (st : FlmState) :
    FlmState :=
  let cols := colsFor isjunk b blo bhi (a.getD i default)
  let kOf : Nat → Nat := fun j => if j = 0 then 1 else st.j2len (j - 1) + 1
  let best := rowBest i kOf cols (st.besti, st.bestj, st.bestsize)
  ⟨fun j => if j ∈ cols then kOf j else 0, best.1, best.2.1, best.2.2⟩

/-- The dynamic program of `find_longest_match`, rows `alo, ..., ahi-1`,
starting from `besti, bestj, bestsize = alo, blo, 0` and `j2len = {}`. -/
def flmDP (isjunk : α → Bool) (a b : List α) (alo ahi blo bhi : Nat) : FlmState :=
  (List.range' alo (ahi - alo)).foldl (fun st i => flmRow isjunk a b blo bhi i st)
    ⟨fun _ => 0, alo, blo, 0⟩

/-- The two backward `while` extension loops (`junkStep = false` for the
non-junk loop, `true` for the junk loop).  The loop decrements `besti` by
one each pass, so recursion on `besti` captures it. -/
def extBack (isjunk : α → Bool) (a b : List α) (junkStep : Bool) (alo blo : Nat) :
    Nat → Nat → Nat → Nat × Nat × Nat
  | 0, bestj, bestsize => (0, bestj, bestsize)
  | bi + 1, bestj, bestsize =>
    if alo < bi + 1 ∧ blo < bestj ∧
        isjunk (b.getD (bestj - 1) default) = junkStep ∧
        a.getD bi default = b.getD (bestj - 1) default then
      extBack isjunk a b junkStep alo blo bi (bestj - 1) (bestsize + 1)
    else (bi + 1, bestj, bestsize)

/-- The two forward `while` extension loops: `bestsize` grows while all
four conditions hold, i.e. by the length of the run of offsets `t` from 0
on which they hold (the bound `besti + bestsize + t < ahi` is exactly
membership in the range). -/
def extFwd (isjunk : α → Bool) (a b : List α) (junkStep : Bool) (ahi bhi besti bestj : Nat)
    (bestsize : Nat) : Nat :=
  bestsize +
    ((List.range' 0 (ahi - (besti + bestsize))).takeWhile (fun t =>
        decide (bestj + bestsize + t < bhi) &&
          decide (isjunk (b.getD (bestj + bestsize + t) default) = junkStep) &&
          decide (a.getD (besti + bestsize + t) default =
            b.getD (bestj + bestsize + t) default))).length

/-- `SequenceMatcher.find_longest_match(alo, ahi, blo, bhi)`. -/
def find_longest_match (isjunk : α → Bool) (a b : List α) (alo ahi blo bhi : Nat) :
    Nat × Nat × Nat :=
  let st := flmDP isjunk a b alo ahi blo bhi
  let s1 := extBack isjunk a b false alo blo st.besti st.bestj st.bestsize
  let n1 := extFwd isjunk a b false ahi bhi s1.1 s1.2.1 s1.2.2
  let s2 := extBack isjunk a b true alo blo s1.1 s1.2.1 n1
  let n2 := extFwd isjunk a b true ahi bhi s2.1 s2.2.1 s2.2.2
  (s2.1, s2.2.1, n2)

/-- Whether index `r` of `a` can belong to a matching run of the dynamic
program on the symmetric instance `find_longest_match a a lo hi lo hi`:
inside the range and not purged from `b2j`. -/
def okRow (isjunk : α → Bool) (a : List α) (lo hi r : Nat) : Bool :=
  decide (lo ≤ r) && decide (r < hi) && !purgedB isjunk a (a.getD r default)

/-- `dr t`: on the symmetric instance, the length of the run of non-purged
in-range indices ending at `lo + t` (the value the dynamic program's
diagonal cell at row `lo + t` carries). -/
def dr (isjunk : α → Bool) (a : List α) (lo hi : Nat) : Nat → Nat
  | 0 => if okRow isjunk a lo hi lo then 1 else 0
  | t + 1 => if okRow isjunk a lo hi (lo + t + 1) then dr isjunk a lo hi t + 1 else 0

/-- The largest `dr` value over the first `t` rows. -/
def maxDR (isjunk : α → Bool) (a : List α) (lo hi : Nat) : Nat → Nat
  | 0 => 0
  | t + 1 => max (maxDR isjunk a lo hi t) (dr isjunk a lo hi t)

/-- `crF t c`: on the symmetric instance, the `j2len` table after the
dynamic program has processed `t` rows (missing entries read as 0). -/
def crF (isjunk : α → Bool) (a : List α) (lo hi : Nat) : Nat → Nat → Nat
  | 0, _ => 0
  | t + 1, c =>
    if c ∈ colsFor isjunk a lo hi (a.getD (lo + t) default) then
      (if c = 0 then 1 else crF isjunk a lo hi t (c - 1) + 1)
    else 0

/-- The dynamic program of `find_longest_match` on the symmetric instance
`(a, a, lo, hi, lo, hi)` after `t` of its rows. -/
def dpState (isjunk : α → Bool) (a : List α) (lo hi t : Nat) : FlmState :=
  (List.range' lo t).foldl (fun st i => flmRow isjunk a a lo hi i st)
    ⟨fun _ => 0, lo, lo, 0⟩

/-- The divide-and-conquer of `get_matching_blocks` before collapsing.  The
Python version maintains an explicit queue and sorts at the end; in-order
recursion produces the same sorted list (every block found left of the
pivot precedes it, every block right of it follows).  `fuel` bounds the
recursion depth; both range sizes shrink by at least one per level, so
`a.length + b.length + 1` can never be exhausted. -/
def mbRec (isjunk : α → Bool) (a b : List α) :
    Nat → Nat → Nat → Nat → Nat → List (Nat × Nat × Nat)
  | 0, _, _, _, _ => []
  | fuel + 1, alo, ahi, blo, bhi =>
    let r := find_longest_match isjunk a b alo ahi blo bhi
    let i := r.1
    let j := r.2.1
    let k := r.2.2
    if k = 0 then []
    else
      (if alo < i ∧ blo < j then mbRec isjunk a b fuel alo i blo j else []) ++
        (i, j, k) ::
          (if i + k < ahi ∧ j + k < bhi then mbRec isjunk a b fuel (i + k) ahi (j + k) bhi
           else [])

/-- The adjacent-block collapsing loop of `get_matching_blocks`, started
with `i1 = j1 = k1 = 0`. -/
def collapseAdj : Nat × Nat × Nat → List (Nat × Nat × Nat) → List (Nat × Nat × Nat)
  | (i1, j1, k1), [] => if k1 ≠ 0 then [(i1, j1, k1)] else []
  | (i1, j1, k1), (i2, j2, k2) :: rest =>
    if i1 + k1 = i2 ∧ j1 + k1 = j2 then collapseAdj (i1, j1, k1 + k2) rest
    else (if k1 ≠ 0 then [(i1, j1, k1)] else []) ++ collapseAdj (i2, j2, k2) rest

/-- `SequenceMatcher.get_matching_blocks()`: recursion, collapse, then the
`(len(a), len(b), 0)` sentinel. -/
def get_matching_blocks (isjunk : α → Bool) (a b : List α) : List (Nat × Nat × Nat) :=
  collapseAdj (0, 0, 0)
      (mbRec isjunk a b (a.length + b.length + 1) 0 a.length 0 b.length) ++
    [(a.length, b.length, 0)]

inductive Tag where
  | replace
  | delete
  | insert
  | equal
  deriving DecidableEq, Repr

/-- The loop body of `get_opcodes` over the matching blocks. -/
def opcodesFrom : Nat → Nat → List (Nat × Nat × Nat) → List (Tag × Nat × Nat × Nat × Nat)
  | _, _, [] => []
  | i, j, (ai, bj, size) :: rest =>
    (if i < ai ∧ j < bj then [(Tag.replace, i, ai, j, bj)]
     else if i < ai then [(Tag.delete, i, ai, j, bj)]
     else if j < bj then [(Tag.insert, i, ai, j, bj)]
     else []) ++
      (if size ≠ 0 then [(Tag.equal, ai, ai + size, bj, bj + size)] else []) ++
      opcodesFrom (ai + size) (bj + size) rest

/-- `SequenceMatcher.get_opcodes()`. -/
def get_opcodes (isjunk : α → Bool) (a b : List α) : List (Tag × Nat × Nat × Nat × Nat) :=
  opcodesFrom 0 0 (get_matching_blocks isjunk a b)

/-- `_calculate_ratio`, with Python floats replaced by exact fractions
`numerator / denominator` (denominator always positive).  Every ratio and
cutoff in the program is an exact small fraction; comparisons are done by
cross-multiplication, so no comparison here can differ from the float one
unless two values are closer than float rounding error, which never
happens for the inputs of this development. -/
def calcRatio (m tot : Nat) : Nat × Nat :=
  if tot ≠ 0 then (2 * m, tot) else (1, 1)

/-- `p > q` on fractions (positive denominators). -/
def ratGt (p q : Nat × Nat) : Bool := q.2 * p.1 > q.1 * p.2

/-- `p < q` on fractions (positive denominators). -/
def ratLt (p q : Nat × Nat) : Bool := q.2 * p.1 < q.1 * p.2

/-- `SequenceMatcher.ratio()`. -/
def ratioFull (isjunk : α → Bool) (a b : List α) : Nat × Nat :=
  calcRatio (((get_matching_blocks isjunk a b).map (fun t => t.2.2)).sum)
    (a.length + b.length)

/-- The multiset-intersection loop of `quick_ratio`, written exactly as the
`avail` dictionary walk (the counters can go negative, hence `Int`). -/
def quickMatches (a b : List α) : Nat :=
  (a.foldl
      (fun (st : List (α × Int) × Nat) elt =>
        let numb : Int :=
          match st.1.lookup elt with
          | some v => v
          | none => (countIn b elt : Int)
        ((elt, numb - 1) :: st.1, if 0 < numb then st.2 + 1 else st.2))
      ([], 0)).2

/-- `SequenceMatcher.quick_ratio()`. -/
def ratioQuick (a b : List α) : Nat × Nat :=
  calcRatio (quickMatches a b) (a.length + b.length)

/-- `SequenceMatcher.real_quick_ratio()`. -/
def ratioRealQuick (a b : List α) : Nat × Nat :=
  calcRatio (min a.length b.length) (a.length + b.length)

end SM

/-! ## `difflib.Differ().compare`

`Differ()` leaves both `linejunk` and `charjunk` at `None`, so every
`SequenceMatcher` it builds has no junk. -/

namespace Differ

/-- The `isjunk=None` predicate. -/
def noJunk {α : Type} : α → Bool := fun _ => false

/-- `Differ._dump(tag, x, lo, hi)`: `'%s %s' % (tag, x[i])` for each line
of the range. -/
def dump (tag : String) (x : List String) (lo hi : Nat) : List String :=
  ((x.drop lo).take (hi - lo)).map (fun s => tag ++ " " ++ s)

/-- `Differ._plain_replace`. -/
def plainReplace (a b : List String) (alo ahi blo bhi : Nat) : List String :=
  if bhi - blo < ahi - alo then dump "+" b blo bhi ++ dump "-" a alo ahi
  else dump "-" a alo ahi ++ dump "+" b blo bhi

/-- State of the search loop of `_fancy_replace`: the first identical pair
`(eqi, eqj)` if any, the current best pair if one beat the running
`best_ratio`, and the running `best_ratio` itself (initially 0.74). -/
structure ScanState where
  eqPair : Option (Nat × Nat)
  best : Option (Nat × Nat)
  bestRatio : Nat × Nat

/-- One step `(j, i)` of the `_fancy_replace` search loop. -/
def scanPair (a b : List String) (j : Nat) (st : ScanState) (i : Nat) : ScanState :=
  let ai := a.getD i ""
  let bj := b.getD j ""
  if ai = bj then
    { st with eqPair := match st.eqPair with | none => some (i, j) | s => s }
  else if SM.ratGt (SM.ratioRealQuick ai.data bj.data) st.bestRatio ∧
      SM.ratGt (SM.ratioQuick ai.data bj.data) st.bestRatio ∧
      SM.ratGt (SM.ratioFull noJunk ai.data bj.data) st.bestRatio then
    { st with best := some (i, j), bestRatio := SM.ratioFull noJunk ai.data bj.data }
  else st

/-- The full `_fancy_replace` search: `j` over `[blo, bhi)` outside, `i`
over `[alo, ahi)` inside. -/
def fancyScan (a b : List String) (alo ahi blo bhi : Nat) : ScanState :=
  (List.range' blo (bhi - blo)).foldl
    (fun st j => (List.range' alo (ahi - alo)).foldl (scanPair a b j) st)
    ⟨none, none, (74, 100)⟩

/-- The intraline tag strings built by `_fancy_replace` from the char-level
opcodes of the synch pair. -/
def tagStrings (aelt belt : List Char) : List Char × List Char :=
  (SM.get_opcodes noJunk aelt belt).foldl
    (fun (st : List Char × List Char) oc =>
      match oc with
      | (SM.Tag.replace, i1, i2, j1, j2) =>
        (st.1 ++ List.replicate (i2 - i1) '^', st.2 ++ List.replicate (j2 - j1) '^')
      | (SM.Tag.delete, i1, i2, _, _) => (st.1 ++ List.replicate (i2 - i1) '-', st.2)
      | (SM.Tag.insert, _, _, j1, j2) => (st.1, st.2 ++ List.replicate (j2 - j1) '+')
      | (SM.Tag.equal, i1, i2, j1, j2) =>
        (st.1 ++ List.replicate (i2 - i1) ' ', st.2 ++ List.replicate (j2 - j1) ' '))
    ([], [])

/-- `difflib._keep_original_ws(s, tag_s)` (`zip` truncates to the shorter
of the two; `str.isspace` is modeled by `Char.isWhitespace`, which agrees
on every character a tag or a text line can contain here). -/
def keepOriginalWs (s tags : List Char) : List Char :=
  (s.zip tags).map (fun p => if p.2 = ' ' ∧ p.1.isWhitespace then p.1 else p.2)

/-- Python `str.rstrip()` on a tag string. -/
def rstripWs (s : List Char) : List Char :=
  (s.reverse.dropWhile (fun c => c.isWhitespace)).reverse

/-- `Differ._qformat(aline, bline, atags, btags)`. -/
def qformat (aline bline : String) (atags btags : List Char) : List String :=
  let at2 := rstripWs (keepOriginalWs aline.data atags)
  let bt2 := rstripWs (keepOriginalWs bline.data btags)
  ["- " ++ aline] ++
    (if at2 ≠ [] then ["? " ++ String.mk at2 ++ "\n"] else []) ++
    ["+ " ++ bline] ++
    (if bt2 ≠ [] then ["? " ++ String.mk bt2 ++ "\n"] else [])

/-- The `- / ? / + / ?` quad `_fancy_replace` emits for a non-identical
synch pair. -/
def fancyQuad (aelt belt : String) : List String :=
  let tags := tagStrings aelt.data belt.data
  qformat aelt belt tags.1 tags.2

/-- `_fancy_replace`, with `_fancy_helper` inlined as the local `helper`
(the two are mutually recursive in Python; the helper either dumps a
one-sided range or re-enters `_fancy_replace` on it).  Recursion is
structural on `fuel`; each re-entry acts on ranges whose combined size
strictly decreased, so a starting fuel of `(ahi - alo) + (bhi - blo) + 1`
is never exhausted. -/
def fancyReplace (a b : List String) :
    Nat → Nat → Nat → Nat → Nat → List String
  | 0, _, _, _, _ => []
  | fuel + 1, alo, ahi, blo, bhi =>
    let helper : Nat → Nat → Nat → Nat → List String := fun alo2 ahi2 blo2 bhi2 =>
      if alo2 < ahi2 then
        if blo2 < bhi2 then fancyReplace a b fuel alo2 ahi2 blo2 bhi2
        else dump "-" a alo2 ahi2
      else if blo2 < bhi2 then dump "+" b blo2 bhi2
      else []
    let st := fancyScan a b alo ahi blo bhi
    let emit : Nat → Nat → Bool → List String := fun bi bj identical =>
      helper alo bi blo bj ++
        (if identical then ["  " ++ a.getD bi ""]
         else fancyQuad (a.getD bi "") (b.getD bj "")) ++
        helper (bi + 1) ahi (bj + 1) bhi
    if SM.ratLt st.bestRatio (75, 100) then
      match st.eqPair with
      | none => plainReplace a b alo ahi blo bhi
      | some (ei, ej) => emit ei ej true
    else
      match st.best with
      | some (bi, bj) => emit bi bj false
      | none => []

/-- `Differ().compare(a, b)`, as the list of all yielded delta lines. -/
def compare (a b : List String) : List String :=
  (SM.get_opcodes noJunk a b).foldr
    (fun oc acc =>
      (match oc with
       | (SM.Tag.replace, alo, ahi, blo, bhi) =>
         fancyReplace a b ((ahi - alo) + (bhi - blo) + 1) alo ahi blo bhi
       | (SM.Tag.delete, alo, ahi, _, _) => dump "-" a alo ahi
       | (SM.Tag.insert, _, _, blo, bhi) => dump "+" b blo bhi
       | (SM.Tag.equal, alo, ahi, _, _) => dump " " a alo ahi) ++ acc)
    []

end Differ

/-! ## The Verifier: `check_solution`

Modeled as a pure function of the three paths, the contents of the two
files it reads, and the captured streams of the solution process (an
opaque external program).  What the Python function does with the world —
raising, and writing the error artifact just before raising — is returned
as data. -/

/-- How one `check_solution` call ends.

* `ok` — the function returns `None`.
* `stagingCrash` — the co-location branch was taken; its first statement,
  `shutil.copyfile(in_file, tmpdirname)`, has the fresh temporary
  directory itself as destination and raises `IsADirectoryError`, so the
  branch never gets further (nothing is staged and no process runs).
* `executionError err` — `len(err) != 0`: the `Exception` carrying the
  text of the error stream.
* `mismatch` — the `AssertionError`: 1-based line number, the flagged diff
  entry, the next two diff entries with spaces replaced by carets, and the
  artifact path.
* `stopIteration` — a `next(diffs)` call inside the `AssertionError`
  format arguments found the diff exhausted and raised `StopIteration`
  instead; the recorded arguments are the loop state at the crash. -/
inductive Outcome where
  | ok
  | stagingCrash
  | executionError (err : String)
  | mismatch (lineNo : Nat) (diffLine d1 d2 : String) (errorFile : String)
  | stopIteration (lineNo : Nat) (diffLine : String) (errorFile : String)
  deriving DecidableEq, Repr

/-- The decoded standard streams of the solution process. -/
structure ProcResult where
  stdout : String
  stderr : String
  deriving DecidableEq, Repr

/-- Outcome plus the artifact file written on divergence (path and
content), `none` when nothing was written. -/
structure CheckResult where
  outcome : Outcome
  artifact : Option (String × String)
  deriving DecidableEq, Repr

/-- The co-location test of line 198:
`os.path.dirname(in_file) != os.path.dirname(solution_file)`. -/
def stagingTaken (in_file solution_file : String) : Bool :=
  dirname in_file != dirname solution_file

/-- The `enumerate(diffs, 1)` loop: the first diff entry not starting with
a space, with its 1-based number and the entries remaining after it. -/
def firstFlagged : List String → Nat → Option (Nat × String × List String)
  | [], _ => none
  | d :: rest, n =>
    if pyStartsWith d " " then firstFlagged rest (n + 1) else some (n, d, rest)

/-- `check_solution(in_file, out_file, solution_file)`.  `inContents` /
`outContents` are what reading the two files yields (the input file is
read and logged but not otherwise used), `proc` the solution process's
captured output. -/
def check_solution (in_file _out_file solution_file : String)
    (_inContents outContents : String) (proc : ProcResult) : CheckResult :=
  let expected_out := normalize outContents
  if stagingTaken in_file solution_file then
    { outcome := .stagingCrash, artifact := none }
  else if proc.stderr.length ≠ 0 then
    { outcome := .executionError proc.stderr, artifact := none }
  else
    let out := normalize proc.stdout
    let diffs := Differ.compare out expected_out
    match firstFlagged diffs 1 with
    | none => { outcome := .ok, artifact := none }
    | some (lineNo, diff, rest) =>
      let error_file := pyReplace in_file "in" "error"
      let art := some (error_file, String.join out)
      match rest with
      | d1 :: d2 :: _ =>
        { outcome := .mismatch lineNo diff (pyReplace d1 " " "^")
            (pyReplace d2 " " "^") error_file,
          artifact := art }
      | _ => { outcome := .stopIteration lineNo diff error_file, artifact := art }

/-! ## Theorems -/

/-- A nonempty string has nonzero length. -/
theorem strLength_ne_zero {s : String} (h : s ≠ "") : s.length ≠ 0 := by
  cases s with
  | mk data =>
    cases data with
    | nil => exact absurd rfl h
    | cons c cs => simp [String.length]

/-- `leadsWith p s` holds exactly when `s` extends `p`. -/
theorem leadsWith_iff_append (p : List Char) :
    ∀ s, leadsWith p s = true ↔ ∃ t, s = p ++ t := by
  induction p with
  | nil =>
    intro s
    simp [leadsWith]
  | cons c cs ih =>
    intro s
    cases s with
    | nil =>
      simp [leadsWith]
    | cons d ds =>
      simp only [leadsWith, Bool.and_eq_true, decide_eq_true_eq, ih ds,
        List.cons_append, List.cons.injEq]
      constructor
      · rintro ⟨rfl, t, rfl⟩
        exact ⟨t, rfl, rfl⟩
      · rintro ⟨t, rfl, rfl⟩
        exact ⟨rfl, t, rfl⟩

/-- `leadsWith p (p ++ t)` always holds. -/
theorem leadsWith_append_self (p t : List Char) : leadsWith p (p ++ t) = true :=
  (leadsWith_iff_append p (p ++ t)).2 ⟨t, rfl⟩

namespace SM

variable {α : Type} [DecidableEq α] [Inhabited α]

/-- Membership in the column list of one dynamic-program row. -/
theorem mem_colsFor {isjunk : α → Bool} {b : List α} {blo bhi : Nat} {x : α} {c : Nat} :
    c ∈ colsFor isjunk b blo bhi x ↔
      purgedB isjunk b x = false ∧ c < b.length ∧ b.getD c default = x ∧
        blo ≤ c ∧ c < bhi := by
  unfold colsFor b2j
  rcases hp : purgedB isjunk b x with _ | _
  · simp only [hp, Bool.false_eq_true, if_false, List.mem_filter, List.mem_range,
      Bool.and_eq_true, decide_eq_true_eq]
    tauto
  · simp [hp]

/-- Column lists are strictly ascending. -/
theorem colsFor_sorted (isjunk : α → Bool) (b : List α) (blo bhi : Nat) (x : α) :
    (colsFor isjunk b blo bhi x).Pairwise (· < ·) := by
  unfold colsFor b2j
  split
  · simp
  · exact List.Pairwise.sublist (List.filter_sublist _)
      (List.Pairwise.sublist (List.filter_sublist _) (List.pairwise_lt_range _))

/-- A column is itself a non-purged in-range index. -/
theorem okRow_of_mem_colsFor {isjunk : α → Bool} {a : List α} {lo hi : Nat} {r c : Nat}
    (h : c ∈ colsFor isjunk a lo hi (a.getD r default)) :
    okRow isjunk a lo hi c = true := by
  rw [mem_colsFor] at h
  obtain ⟨hp, _, hval, hlo, hhi⟩ := h
  unfold okRow
  rw [hval, hp]
  simp [hlo, hhi]

/-- The row index belongs to its own column list as soon as it is in range
and not purged. -/
theorem self_mem_colsFor {isjunk : α → Bool} {a : List α} {lo hi r : Nat}
    (hlen : r < a.length) (hlo : lo ≤ r) (hhi : r < hi)
    (hp : purgedB isjunk a (a.getD r default) = false) :
    r ∈ colsFor isjunk a lo hi (a.getD r default) :=
  mem_colsFor.2 ⟨hp, hlen, rfl, hlo, hhi⟩

/-- A purged row has an empty column list. -/
theorem colsFor_eq_nil_of_purged {isjunk : α → Bool} {a : List α} {lo hi : Nat} {x : α}
    (hp : purgedB isjunk a x = true) : colsFor isjunk a lo hi x = [] := by
  unfold colsFor b2j
  simp [hp]

/-- `dr` is positive on a usable row. -/
theorem one_le_dr {isjunk : α → Bool} {a : List α} {lo hi : Nat} {t : Nat}
    (h : okRow isjunk a lo hi (lo + t) = true) : 1 ≤ dr isjunk a lo hi t := by
  cases t with
  | zero => unfold dr; simp_all
  | succ u =>
    have h2 : okRow isjunk a lo hi (lo + u + 1) = true := h
    unfold dr
    simp [h2]

/-- `dr` on an unusable row is zero. -/
theorem dr_eq_zero {isjunk : α → Bool} {a : List α} {lo hi : Nat} {t : Nat}
    (h : okRow isjunk a lo hi (lo + t) = false) : dr isjunk a lo hi t = 0 := by
  cases t with
  | zero => unfold dr; simp_all
  | succ u =>
    have h2 : okRow isjunk a lo hi (lo + u + 1) = false := h
    unfold dr
    simp [h2]

/-- Runs are no longer than the prefix they end. -/
theorem dr_le {isjunk : α → Bool} {a : List α} {lo hi : Nat} :
    ∀ t, dr isjunk a lo hi t ≤ t + 1 := by
  intro t
  induction t with
  | zero => unfold dr; split <;> omega
  | succ u ih => unfold dr; split <;> omega

/-- The recurrence of `dr` re-indexed by the absolute position. -/
theorem dr_of_ok {isjunk : α → Bool} {a : List α} {lo hi : Nat} {c : Nat}
    (hlo : lo ≤ c) (hok : okRow isjunk a lo hi c = true) :
    dr isjunk a lo hi (c - lo) =
      (if c = lo then 1 else dr isjunk a lo hi (c - lo - 1) + 1) := by
  rcases Nat.exists_eq_add_of_le hlo with ⟨u, rfl⟩
  cases u with
  | zero =>
    have hok2 : okRow isjunk a lo hi lo = true := hok
    simp only [Nat.add_zero, Nat.sub_self, if_pos rfl]
    unfold dr
    simp [hok2]
  | succ v =>
    have h1 : lo + (v + 1) - lo = v + 1 := by omega
    have h2 : lo + (v + 1) ≠ lo := by omega
    rw [h1, if_neg h2]
    have h4 : v + 1 - 1 = v := rfl
    rw [h4]
    have hok2 : okRow isjunk a lo hi (lo + v + 1) = true := hok
    show (if okRow isjunk a lo hi (lo + v + 1) then dr isjunk a lo hi v + 1 else 0) =
      dr isjunk a lo hi v + 1
    simp [hok2]

/-- Every earlier `dr` value is below the running maximum. -/
theorem dr_le_maxDR {isjunk : α → Bool} {a : List α} {lo hi : Nat} :
    ∀ t u, u < t → dr isjunk a lo hi u ≤ maxDR isjunk a lo hi t := by
  intro t
  induction t with
  | zero => omega
  | succ v ih =>
    intro u hu
    unfold maxDR
    rcases Nat.lt_succ_iff_lt_or_eq.1 hu with h | rfl
    · exact le_trans (ih u h) (le_max_left _ _)
    · exact le_max_right _ _

/-- The `j2len` table vanishes left of the range. -/
theorem crF_eq_zero_left {isjunk : α → Bool} {a : List α} {lo hi : Nat} :
    ∀ t c, c < lo → crF isjunk a lo hi t c = 0 := by
  intro t c hc
  cases t with
  | zero => rfl
  | succ u =>
    unfold crF
    rw [if_neg]
    intro hmem
    exact absurd (mem_colsFor.1 hmem).2.2.2.1 (by omega)

/-- The two defining equations of `dr`, stated for rewriting. -/
theorem dr_zero {isjunk : α → Bool} {a : List α} {lo hi : Nat} :
    dr isjunk a lo hi 0 = if okRow isjunk a lo hi lo then 1 else 0 := rfl

theorem dr_succ {isjunk : α → Bool} {a : List α} {lo hi u : Nat} :
    dr isjunk a lo hi (u + 1) =
      if okRow isjunk a lo hi (lo + u + 1) then dr isjunk a lo hi u + 1 else 0 := rfl

/-- The two defining equations of `crF`, stated for rewriting. -/
theorem crF_zero {isjunk : α → Bool} {a : List α} {lo hi c : Nat} :
    crF isjunk a lo hi 0 c = 0 := rfl

theorem crF_succ {isjunk : α → Bool} {a : List α} {lo hi t c : Nat} :
    crF isjunk a lo hi (t + 1) c =
      if c ∈ colsFor isjunk a lo hi (a.getD (lo + t) default) then
        (if c = 0 then 1 else crF isjunk a lo hi t (c - 1) + 1)
      else 0 := rfl

/-- Unfolding of `okRow`. -/
theorem okRow_dest {isjunk : α → Bool} {a : List α} {lo hi c : Nat}
    (h : okRow isjunk a lo hi c = true) :
    lo ≤ c ∧ c < hi ∧ purgedB isjunk a (a.getD c default) = false := by
  unfold okRow at h
  simp only [Bool.and_eq_true, decide_eq_true_eq, Bool.not_eq_true'] at h
  exact ⟨h.1.1, h.1.2, h.2⟩

/-- An in-range index failing `okRow` is purged. -/
theorem purged_of_okRow_false {isjunk : α → Bool} {a : List α} {lo hi c : Nat}
    (hlo : lo ≤ c) (hhi : c < hi) (h : okRow isjunk a lo hi c = false) :
    purgedB isjunk a (a.getD c default) = true := by
  unfold okRow at h
  simp only [Bool.and_eq_false_iff, decide_eq_false_iff_not, Bool.not_eq_false'] at h
  rcases h with (h | h) | h
  · omega
  · omega
  · exact h

/-- `one_le_dr` re-indexed by absolute position. -/
theorem one_le_dr_abs {isjunk : α → Bool} {a : List α} {lo hi c : Nat}
    (hlo : lo ≤ c) (hok : okRow isjunk a lo hi c = true) :
    1 ≤ dr isjunk a lo hi (c - lo) := by
  have h : lo + (c - lo) = c := by omega
  exact one_le_dr (by rw [h]; exact hok)

/-- A nonempty column list makes its row usable. -/
theorem okRow_row_of_mem {isjunk : α → Bool} {a : List α} {lo hi t c : Nat}
    (ht : t < hi - lo)
    (hmem : c ∈ colsFor isjunk a lo hi (a.getD (lo + t) default)) :
    okRow isjunk a lo hi (lo + t) = true := by
  have hp := (mem_colsFor.1 hmem).1
  unfold okRow
  rw [hp]
  simp only [Bool.not_false, Bool.and_true, Bool.and_eq_true, decide_eq_true_eq]
  omega

/-- The column-side bound: a `j2len` entry never exceeds the run of usable
indices ending at its column. -/
theorem crF_le_dr_col {isjunk : α → Bool} {a : List α} {lo hi : Nat} :
    ∀ t c, crF isjunk a lo hi (t + 1) c ≤ dr isjunk a lo hi (c - lo) := by
  intro t
  induction t with
  | zero =>
    intro c
    rw [crF_succ]
    split
    case isTrue hmem =>
      have hok := okRow_of_mem_colsFor hmem
      have hlo : lo ≤ c := (mem_colsFor.1 hmem).2.2.2.1
      have h1 := one_le_dr_abs hlo hok
      rw [crF_zero]
      split <;> omega
    case isFalse _ => exact Nat.zero_le _
  | succ u ih =>
    intro c
    rw [crF_succ]
    split
    case isTrue hmem =>
      have hok := okRow_of_mem_colsFor hmem
      have hlo : lo ≤ c := (mem_colsFor.1 hmem).2.2.2.1
      by_cases hc0 : c = 0
      · rw [if_pos hc0]
        exact one_le_dr_abs hlo hok
      · rw [if_neg hc0]
        by_cases hcl : c = lo
        · subst hcl
          rw [crF_eq_zero_left _ _ (by omega)]
          have h1 := one_le_dr_abs hlo hok
          omega
        · have h5 : dr isjunk a lo hi (c - lo) = dr isjunk a lo hi (c - lo - 1) + 1 := by
            rw [dr_of_ok hlo hok, if_neg hcl]
          rw [h5]
          have h6 : c - 1 - lo = c - lo - 1 := by omega
          have h7 := ih (c - 1)
          rw [h6] at h7
          omega
    case isFalse _ => exact Nat.zero_le _

/-- The row-side bound: a `j2len` entry never exceeds the run of usable
indices ending at its row. -/
theorem crF_le_dr_row {isjunk : α → Bool} {a : List α} {lo hi : Nat} :
    ∀ t c, t < hi - lo → crF isjunk a lo hi (t + 1) c ≤ dr isjunk a lo hi t := by
  intro t
  induction t with
  | zero =>
    intro c ht
    rw [crF_succ]
    split
    case isTrue hmem =>
      have h1 := one_le_dr (okRow_row_of_mem ht hmem)
      rw [crF_zero]
      split <;> omega
    case isFalse _ => exact Nat.zero_le _
  | succ u ih =>
    intro c ht
    rw [crF_succ]
    split
    case isTrue hmem =>
      have hok : okRow isjunk a lo hi (lo + u + 1) = true :=
        okRow_row_of_mem ht hmem
      have hdr : dr isjunk a lo hi (u + 1) = dr isjunk a lo hi u + 1 := by
        rw [dr_succ, if_pos hok]
      rw [hdr]
      split
      · omega
      · have h7 := ih (c - 1) (by omega)
        omega
    case isFalse _ => exact Nat.zero_le _

/-- The diagonal identity: the diagonal `j2len` entry of row `lo + t` is
exactly `dr t`. -/
theorem crF_diag {isjunk : α → Bool} {a : List α} {lo hi : Nat} (hlen : hi ≤ a.length) :
    ∀ t, t < hi - lo → crF isjunk a lo hi (t + 1) (lo + t) = dr isjunk a lo hi t := by
  intro t
  induction t with
  | zero =>
    intro ht
    rw [crF_succ, dr_zero]
    by_cases hok : okRow isjunk a lo hi lo = true
    · obtain ⟨h1, h2, h3⟩ := okRow_dest hok
      have hmem : lo + 0 ∈ colsFor isjunk a lo hi (a.getD (lo + 0) default) :=
        self_mem_colsFor (by omega) (by omega) (by omega) (by exact h3)
      rw [if_pos hmem, if_pos hok]
      split
      · rfl
      · rw [crF_zero]
    · have hok2 : okRow isjunk a lo hi lo = false := by
        revert hok
        cases okRow isjunk a lo hi lo <;> simp
      have hp : purgedB isjunk a (a.getD (lo + 0) default) = true := by
        exact purged_of_okRow_false (by omega) (by omega) hok2
      rw [colsFor_eq_nil_of_purged hp]
      rw [if_neg (by simp), if_neg (by simp [hok2])]
  | succ u ih =>
    intro ht
    rw [crF_succ, dr_succ]
    by_cases hok : okRow isjunk a lo hi (lo + u + 1) = true
    · obtain ⟨h1, h2, h3⟩ := okRow_dest hok
      have hmem : lo + (u + 1) ∈ colsFor isjunk a lo hi (a.getD (lo + (u + 1)) default) :=
        self_mem_colsFor (by omega) (by omega) (by omega) (by exact h3)
      rw [if_pos hmem, if_neg (by omega), if_pos hok]
      have hstep : lo + (u + 1) - 1 = lo + u := by omega
      rw [hstep, ih (by omega)]
    · have hok2 : okRow isjunk a lo hi (lo + u + 1) = false := by
        revert hok
        cases okRow isjunk a lo hi (lo + u + 1) <;> simp
      have hp : purgedB isjunk a (a.getD (lo + (u + 1)) default) = true := by
        exact purged_of_okRow_false (by omega) (by omega) hok2
      rw [colsFor_eq_nil_of_purged hp]
      rw [if_neg (by simp), if_neg (by simp [hok2])]

/-- The defining equations of `rowBest`. -/
theorem rowBest_nil (i : Nat) (kOf : Nat → Nat) (best : Nat × Nat × Nat) :
    rowBest i kOf [] best = best := rfl

theorem rowBest_cons (i : Nat) (kOf : Nat → Nat) (c : Nat) (cs : List Nat)
    (best : Nat × Nat × Nat) :
    rowBest i kOf (c :: cs) best =
      rowBest i kOf cs
        (if best.2.2 < kOf c then (i + 1 - kOf c, c + 1 - kOf c, kOf c) else best) := rfl

theorem rowBest_append (i : Nat) (kOf : Nat → Nat) (xs ys : List Nat)
    (best : Nat × Nat × Nat) :
    rowBest i kOf (xs ++ ys) best = rowBest i kOf ys (rowBest i kOf xs best) :=
  List.foldl_append _ _ _ _

/-- A row whose candidate values never beat the current best leaves the
best unchanged. -/
theorem rowBest_noupd (i : Nat) (kOf : Nat → Nat) :
    ∀ (cols : List Nat) (best : Nat × Nat × Nat),
      (∀ c ∈ cols, kOf c ≤ best.2.2) → rowBest i kOf cols best = best := by
  intro cols
  induction cols with
  | nil => intro best _; rfl
  | cons c cs ih =>
    intro best hb
    rw [rowBest_cons, if_neg (by
      have := hb c (List.mem_cons_self _ _)
      omega)]
    exact ih best (fun d hd => hb d (List.mem_cons_of_mem _ hd))

/-- The single-row diagonality argument: on an ascending column list that
contains the row index `i` (or is empty), if columns left of `i` cannot
beat the running best and columns right of `i` cannot beat what the best
becomes after the diagonal cell, then the row either keeps the old best or
installs the diagonal cell. -/
theorem rowBest_diag (i : Nat) (kOf : Nat → Nat) (cols : List Nat) (bi bs : Nat)
    (hsort : cols.Pairwise (· < ·))
    (hmem : i ∈ cols ∨ cols = [])
    (hlt : ∀ c ∈ cols, c < i → kOf c ≤ bs)
    (hgt : ∀ c ∈ cols, i < c → kOf c ≤ max bs (kOf i)) :
    rowBest i kOf cols (bi, bi, bs) =
      if i ∈ cols ∧ bs < kOf i then (i + 1 - kOf i, i + 1 - kOf i, kOf i)
      else (bi, bi, bs) := by
  rcases hmem with hmem | rfl
  case inr => simp [rowBest]
  obtain ⟨l₁, l₂, rfl⟩ := List.append_of_mem hmem
  rw [List.pairwise_append] at hsort
  obtain ⟨hs1, hs2, hcross⟩ := hsort
  have hl₁ : ∀ c ∈ l₁, c < i := fun c hc => hcross c hc i (List.mem_cons_self _ _)
  have hl₂ : ∀ c ∈ l₂, i < c := fun c hc => List.rel_of_pairwise_cons hs2 hc
  rw [rowBest_append,
    rowBest_noupd i kOf l₁ (bi, bi, bs)
      (fun c hc => hlt c (List.mem_append_left _ hc) (hl₁ c hc)),
    rowBest_cons]
  by_cases hup : bs < kOf i
  · rw [if_pos (show (bi, bi, bs).2.2 < kOf i from hup),
      rowBest_noupd i kOf l₂ _ (fun c hc => by
        have h1 := hgt c (List.mem_append_right _ (List.mem_cons_of_mem _ hc)) (hl₂ c hc)
        have h2 : max bs (kOf i) = kOf i := Nat.max_eq_right (Nat.le_of_lt hup)
        rw [h2] at h1
        exact h1),
      if_pos ⟨hmem, hup⟩]
  · rw [if_neg (show ¬(bi, bi, bs).2.2 < kOf i from hup),
      rowBest_noupd i kOf l₂ _ (fun c hc => by
        have h1 := hgt c (List.mem_append_right _ (List.mem_cons_of_mem _ hc)) (hl₂ c hc)
        have h2 : max bs (kOf i) = bs := Nat.max_eq_left (Nat.le_of_not_lt hup)
        rw [h2] at h1
        exact h1),
      if_neg (by
        rintro ⟨_, h⟩
        exact hup h)]

/-- One step of `dpState`. -/
theorem dpState_succ (isjunk : α → Bool) (a : List α) (lo hi t : Nat) :
    dpState isjunk a lo hi (t + 1) =
      flmRow isjunk a a lo hi (lo + t) (dpState isjunk a lo hi t) := by
  unfold dpState
  rw [List.range'_concat, List.foldl_append]
  simp

/-- On a purged row `okRow` fails. -/
theorem okRow_eq_false_of_purged {isjunk : α → Bool} {a : List α} {lo hi r : Nat}
    (hp : purgedB isjunk a (a.getD r default) = true) :
    okRow isjunk a lo hi r = false := by
  unfold okRow
  rw [hp]
  simp

/-- The full invariant of the dynamic program on the symmetric instance:
the `j2len` table is `crF`, the best block is always DIAGONAL, it stays
inside the processed prefix, and its size is the best diagonal-run value
seen so far. -/
theorem dpState_self (isjunk : α → Bool) (a : List α) (lo hi : Nat) (hlen : hi ≤ a.length) :
    ∀ t, t ≤ hi - lo →
      (∀ c, (dpState isjunk a lo hi t).j2len c = crF isjunk a lo hi t c) ∧
      (dpState isjunk a lo hi t).besti = (dpState isjunk a lo hi t).bestj ∧
      lo ≤ (dpState isjunk a lo hi t).besti ∧
      (dpState isjunk a lo hi t).besti + (dpState isjunk a lo hi t).bestsize ≤ lo + t ∧
      (dpState isjunk a lo hi t).bestsize = maxDR isjunk a lo hi t := by
  intro t
  induction t with
  | zero =>
    intro _
    exact ⟨fun c => rfl, rfl, le_refl _, by simp [dpState], rfl⟩
  | succ u ih =>
    intro ht
    obtain ⟨hJ, hB1, hB2, hB3, hB4⟩ := ih (by omega)
    rw [dpState_succ]
    set S := dpState isjunk a lo hi u with hS
    set r := lo + u with hr
    set cols := colsFor isjunk a lo hi (a.getD r default) with hcols
    set kOf : Nat → Nat := fun j => if j = 0 then 1 else S.j2len (j - 1) + 1 with hkOf
    have hflm : flmRow isjunk a a lo hi r S =
        ⟨fun j => if j ∈ cols then kOf j else 0,
          (rowBest r kOf cols (S.besti, S.bestj, S.bestsize)).1,
          (rowBest r kOf cols (S.besti, S.bestj, S.bestsize)).2.1,
          (rowBest r kOf cols (S.besti, S.bestj, S.bestsize)).2.2⟩ := rfl
    rw [hflm]
    -- the candidate value of every actual column is the next `j2len` entry
    have hkc : ∀ c ∈ cols, kOf c = crF isjunk a lo hi (u + 1) c := by
      intro c hc
      rw [crF_succ, if_pos hc]
      simp only [hkOf]
      split
      · rfl
      · rw [hJ]
    -- the diagonal dichotomy for this row
    have hdich : r ∈ cols ∨ cols = [] := by
      by_cases hpu : purgedB isjunk a (a.getD r default) = true
      · exact Or.inr (colsFor_eq_nil_of_purged hpu)
      · refine Or.inl (self_mem_colsFor ?_ ?_ ?_ ?_)
        · omega
        · omega
        · omega
        · exact Bool.eq_false_iff.2 hpu
    -- columns left of the row cannot beat the best
    have hlt : ∀ c ∈ cols, c < r → kOf c ≤ S.bestsize := by
      intro c hc hcr
      have hclo : lo ≤ c := (mem_colsFor.1 hc).2.2.2.1
      rw [hkc c hc, hB4]
      exact le_trans (crF_le_dr_col u c) (dr_le_maxDR u (c - lo) (by omega))
    -- columns right of the row cannot beat the diagonal update
    have hgt : ∀ c ∈ cols, r < c → kOf c ≤ max S.bestsize (kOf r) := by
      intro c hc hrc
      have hrmem : r ∈ cols := by
        rcases hdich with h | h
        · exact h
        · rw [h] at hc
          exact absurd hc (List.not_mem_nil _)
      have hkr : kOf r = dr isjunk a lo hi u := by
        rw [hkc r hrmem, crF_diag hlen u (by omega)]
      rw [hkc c hc, hkr]
      exact le_trans (crF_le_dr_row u c (by omega)) (le_max_right _ _)
    rw [← hB1,
      rowBest_diag r kOf cols S.besti S.bestsize (colsFor_sorted _ _ _ _ _) hdich hlt hgt]
    -- the j2len conclusion holds in both cases
    have hJnew : ∀ c, (if c ∈ cols then kOf c else 0) = crF isjunk a lo hi (u + 1) c := by
      intro c
      by_cases hc : c ∈ cols
      · rw [if_pos hc, hkc c hc]
      · rw [if_neg hc, crF_succ, if_neg hc]
    by_cases hcase : r ∈ cols ∧ S.bestsize < kOf r
    · have hkr : kOf r = dr isjunk a lo hi u := by
        rw [hkc r hcase.1, crF_diag hlen u (by omega)]
      rw [if_pos hcase]
      have hdru : dr isjunk a lo hi u ≤ u + 1 := dr_le u
      refine ⟨hJnew, rfl, ?_, ?_, ?_⟩
      · show lo ≤ r + 1 - kOf r
        rw [hkr]
        omega
      · show r + 1 - kOf r + kOf r ≤ lo + (u + 1)
        rw [hkr]
        omega
      · show kOf r = maxDR isjunk a lo hi (u + 1)
        unfold maxDR
        rw [hkr]
        have hlt2 : maxDR isjunk a lo hi u < dr isjunk a lo hi u := by
          rw [← hB4, ← hkr]
          exact hcase.2
        omega
    · rw [if_neg hcase]
      refine ⟨hJnew, rfl, ?_, ?_, ?_⟩
      · show lo ≤ S.besti
        exact hB2
      · show S.besti + S.bestsize ≤ lo + (u + 1)
        omega
      · show S.bestsize = maxDR isjunk a lo hi (u + 1)
        unfold maxDR
        have hdru2 : dr isjunk a lo hi u ≤ maxDR isjunk a lo hi u := by
          rcases hdich with hrmem | hnil
          · have hkr : kOf r = dr isjunk a lo hi u := by
              rw [hkc r hrmem, crF_diag hlen u (by omega)]
            rcases Nat.lt_or_ge S.bestsize (kOf r) with h | h
            · exact absurd ⟨hrmem, h⟩ hcase
            · rw [← hB4, ← hkr]
              exact h
          · have hpu : purgedB isjunk a (a.getD r default) = true := by
              by_contra hpu
              have hself : r ∈ colsFor isjunk a lo hi (a.getD r default) :=
                self_mem_colsFor (by omega) (by omega) (by omega)
                  (Bool.eq_false_iff.2 hpu)
              rw [← hcols, hnil] at hself
              exact absurd hself (List.not_mem_nil _)
            have hzero : dr isjunk a lo hi u = 0 :=
              dr_eq_zero (show okRow isjunk a lo hi (lo + u) = false from
                okRow_eq_false_of_purged hpu)
            omega
        rw [hB4]
        omega

/-- The defining equations of `extBack`. -/
theorem extBack_zero (isjunk : α → Bool) (a b : List α) (js : Bool) (alo blo bj bs : Nat) :
    extBack isjunk a b js alo blo 0 bj bs = (0, bj, bs) := rfl

theorem extBack_succ (isjunk : α → Bool) (a b : List α) (js : Bool) (alo blo bi bj bs : Nat) :
    extBack isjunk a b js alo blo (bi + 1) bj bs =
      if alo < bi + 1 ∧ blo < bj ∧ isjunk (b.getD (bj - 1) default) = js ∧
          a.getD bi default = b.getD (bj - 1) default then
        extBack isjunk a b js alo blo bi (bj - 1) (bs + 1)
      else (bi + 1, bj, bs) := rfl

/-- On the symmetric junk-free instance, the backward non-junk extension
walks all the way down to `lo`. -/
theorem extBack_self_nojunk (a : List α) (lo : Nat) :
    ∀ p s, lo ≤ p →
      extBack (fun _ => false) a a false lo lo p p s = (lo, lo, s + (p - lo)) := by
  intro p
  induction p with
  | zero =>
    intro s hp
    have hlo : lo = 0 := by omega
    subst hlo
    rw [extBack_zero]
    simp
  | succ q ih =>
    intro s hp
    rw [extBack_succ]
    by_cases hl : lo < q + 1
    · rw [if_pos ⟨hl, hl, rfl, rfl⟩]
      have h1 := ih (s + 1) (by omega)
      have h2 : q + 1 - 1 = q := rfl
      rw [h2, h1]
      have h3 : s + 1 + (q - lo) = s + (q + 1 - lo) := by omega
      rw [h3]
    · have hlo : lo = q + 1 := by omega
      rw [if_neg (by rintro ⟨h, _⟩; omega)]
      subst hlo
      simp

/-- On the symmetric junk-free instance, the forward non-junk extension
reaches `hi`. -/
theorem extFwd_self_nojunk (a : List α) (lo hi : Nat) :
    ∀ s, lo + s ≤ hi →
      extFwd (fun _ => false) a a false hi hi lo lo s = hi - lo := by
  intro s hs
  unfold extFwd
  have hfull : (List.range' 0 (hi - (lo + s))).takeWhile
      (fun t =>
        decide (lo + s + t < hi) &&
          decide ((fun _ => false) (a.getD (lo + s + t) default) = false) &&
          decide (a.getD (lo + s + t) default = a.getD (lo + s + t) default)) =
      List.range' 0 (hi - (lo + s)) := by
    rw [List.takeWhile_eq_self_iff]
    intro x hx
    rw [List.mem_range'_1] at hx
    simp only [Bool.and_eq_true, decide_eq_true_eq]
    refine ⟨⟨by omega, by trivial⟩, by trivial⟩
  rw [hfull, List.length_range']
  omega

/-- With no junk at all, the two junk extension loops do nothing. -/
theorem extBack_junk_nojunk (a b : List α) (alo blo : Nat) :
    ∀ p q s, extBack (fun _ => false) a b true alo blo p q s = (p, q, s) := by
  intro p q s
  cases p with
  | zero => rw [extBack_zero]
  | succ r =>
    rw [extBack_succ, if_neg (by rintro ⟨_, _, h, _⟩; exact absurd h (by simp))]

theorem extFwd_junk_nojunk (a b : List α) (ahi bhi p q s : Nat) :
    extFwd (fun _ => false) a b true ahi bhi p q s = s := by
  unfold extFwd
  have hnil : (List.range' 0 (ahi - (p + s))).takeWhile
      (fun t =>
        decide (q + s + t < bhi) &&
          decide ((fun _ => false) (b.getD (q + s + t) default) = true) &&
          decide (a.getD (p + s + t) default = b.getD (q + s + t) default)) = [] := by
    cases h : List.range' 0 (ahi - (p + s)) with
    | nil => rfl
    | cons x xs =>
      rw [List.takeWhile_cons, if_neg (by simp)]
  rw [hnil]
  rfl

/-- `find_longest_match` on the junk-free symmetric instance returns the
whole range: the dynamic program's best block is diagonal, and the non-junk
extension loops stretch any diagonal block to the full range. -/
theorem flm_self (a : List α) (lo hi : Nat) (h1 : lo ≤ hi) (h2 : hi ≤ a.length) :
    find_longest_match (fun _ => false) a a lo hi lo hi = (lo, lo, hi - lo) := by
  obtain ⟨hJ, hB1, hB2, hB3, hB4⟩ :=
    dpState_self (fun _ => false) a lo hi h2 (hi - lo) (le_refl _)
  have hDP : flmDP (fun _ => false) a a lo hi lo hi =
      dpState (fun _ => false) a lo hi (hi - lo) := rfl
  simp only [find_longest_match]
  rw [hDP, ← hB1]
  rw [extBack_self_nojunk a lo _ _ hB2]
  have e2 : extFwd (fun _ => false) a a false hi hi lo lo
      ((dpState (fun _ => false) a lo hi (hi - lo)).bestsize +
        ((dpState (fun _ => false) a lo hi (hi - lo)).besti - lo)) = hi - lo := by
    apply extFwd_self_nojunk
    omega
  rw [e2, extBack_junk_nojunk, extFwd_junk_nojunk]

/-- The successor equation of `mbRec`. -/
theorem mbRec_succ (isjunk : α → Bool) (a b : List α) (fuel alo ahi blo bhi : Nat) :
    mbRec isjunk a b (fuel + 1) alo ahi blo bhi =
      (let r := find_longest_match isjunk a b alo ahi blo bhi
       let i := r.1
       let j := r.2.1
       let k := r.2.2
       if k = 0 then []
       else
         (if alo < i ∧ blo < j then mbRec isjunk a b fuel alo i blo j else []) ++
           (i, j, k) ::
             (if i + k < ahi ∧ j + k < bhi then mbRec isjunk a b fuel (i + k) ahi (j + k) bhi
              else [])) := rfl

/-- Matching blocks of a sequence against itself: one full block (when
nonempty) and the sentinel. -/
theorem get_matching_blocks_self (a : List α) :
    get_matching_blocks (fun _ => false) a a =
      if a.length = 0 then [(0, 0, 0)]
      else [(0, 0, a.length), (a.length, a.length, 0)] := by
  unfold get_matching_blocks
  rw [mbRec_succ, flm_self a 0 a.length (Nat.zero_le _) (le_refl _)]
  obtain ⟨n, hn⟩ : ∃ n, a.length = n := ⟨_, rfl⟩
  rw [hn]
  cases n with
  | zero => simp [collapseAdj]
  | succ m =>
    simp only [Nat.sub_zero]
    rw [if_neg (by omega)]
    rw [if_neg (by omega), if_neg (by omega)]
    simp only [List.nil_append]
    unfold collapseAdj
    rw [if_pos (by omega)]
    unfold collapseAdj
    rw [if_pos (by omega)]
    simp

/-- Opcodes of a sequence against itself: a single `equal` block. -/
theorem get_opcodes_self (a : List α) :
    get_opcodes (fun _ => false) a a =
      if a.length = 0 then []
      else [(Tag.equal, 0, a.length, 0, a.length)] := by
  unfold get_opcodes
  rw [get_matching_blocks_self]
  obtain ⟨n, hn⟩ : ∃ n, a.length = n := ⟨_, rfl⟩
  rw [hn]
  cases n with
  | zero => simp [opcodesFrom]
  | succ m =>
    rw [if_neg (by omega), if_neg (by omega)]
    unfold opcodesFrom
    rw [if_neg (by omega), if_neg (by omega), if_neg (by omega), if_pos (by omega)]
    unfold opcodesFrom
    rw [if_neg (by omega), if_neg (by omega), if_neg (by omega), if_neg (by omega)]
    simp [opcodesFrom]

end SM

/-- Comparing a line sequence with itself yields every line tagged
unchanged (two leading spaces). -/
theorem Differ.compare_self (l : List String) :
    Differ.compare l l = l.map (fun s => " " ++ " " ++ s) := by
  unfold Differ.compare
  have hop : SM.get_opcodes Differ.noJunk l l =
      if l.length = 0 then []
      else [(SM.Tag.equal, 0, l.length, 0, l.length)] := SM.get_opcodes_self l
  rw [hop]
  obtain ⟨n, hn⟩ : ∃ n, l.length = n := ⟨_, rfl⟩
  rw [hn]
  cases n with
  | zero =>
    rw [if_pos rfl]
    rw [List.length_eq_zero.1 hn]
    rfl
  | succ m =>
    rw [if_neg (by omega)]
    simp only [List.foldr_cons, List.foldr_nil]
    show Differ.dump " " l 0 (m + 1) ++ [] = _
    rw [List.append_nil]
    unfold Differ.dump
    rw [List.drop_zero, Nat.sub_zero, ← hn, List.take_length]

/-- Every line of a self-comparison starts with a space. -/
theorem pyStartsWith_twoSpace (s : String) :
    pyStartsWith (" " ++ " " ++ s) " " = true := rfl

/-- `firstFlagged` finds nothing when every diff entry starts with a
space. -/
theorem firstFlagged_none :
    ∀ (l : List String) (n : Nat), (∀ d ∈ l, pyStartsWith d " " = true) →
      firstFlagged l n = none := by
  intro l
  induction l with
  | nil => intro n _; rfl
  | cons d ds ih =>
    intro n h
    unfold firstFlagged
    rw [if_pos (h d (List.mem_cons_self _ _))]
    exact ih (n + 1) (fun e he => h e (List.mem_cons_of_mem _ he))

/-- Asymmetry of the code-point lexicographic order. -/
theorem lexLtB_asymm : ∀ a b : List Char, lexLtB a b = true → lexLtB b a = false := by
  intro a
  induction a with
  | nil =>
    intro b h
    cases b with
    | nil => exact absurd h (by simp [lexLtB])
    | cons d ds => rfl
  | cons c cs ih =>
    intro b h
    cases b with
    | nil => exact absurd h (by simp [lexLtB])
    | cons d ds =>
      unfold lexLtB at h ⊢
      by_cases h1 : c.toNat < d.toNat
      · rw [if_neg (by omega), if_pos (by omega)]
      · rw [if_neg h1] at h
        by_cases h2 : d.toNat < c.toNat
        · rw [if_pos h2] at h
          exact absurd h (by simp)
        · rw [if_neg h2] at h
          rw [if_neg h2, if_neg h1]
          exact ih ds h

/-- Transitivity of the code-point lexicographic order. -/
theorem lexLtB_trans :
    ∀ a b c : List Char, lexLtB a b = true → lexLtB b c = true → lexLtB a c = true := by
  intro a
  induction a with
  | nil =>
    intro b c hab hbc
    cases b with
    | nil => exact absurd hab (by simp [lexLtB])
    | cons e es =>
      cases c with
      | nil => exact absurd hbc (by simp [lexLtB])
      | cons f fs => rfl
  | cons x xs ih =>
    intro b c hab hbc
    cases b with
    | nil => exact absurd hab (by simp [lexLtB])
    | cons e es =>
      cases c with
      | nil => exact absurd hbc (by simp [lexLtB])
      | cons f fs =>
        unfold lexLtB at hab hbc ⊢
        by_cases h1 : x.toNat < e.toNat <;> by_cases h2 : e.toNat < f.toNat
        · rw [if_pos (by omega)]
        · rw [if_neg h2] at hbc
          by_cases h3 : f.toNat < e.toNat
          · rw [if_pos h3] at hbc
            exact absurd hbc (by simp)
          · rw [if_pos (by omega)]
        · rw [if_neg h1] at hab
          by_cases h4 : e.toNat < x.toNat
          · rw [if_pos h4] at hab
            exact absurd hab (by simp)
          · rw [if_pos (by omega)]
        · rw [if_neg h1] at hab
          by_cases h4 : e.toNat < x.toNat
          · rw [if_pos h4] at hab
            exact absurd hab (by simp)
          · rw [if_neg h4] at hab
            rw [if_neg h2] at hbc
            by_cases h3 : f.toNat < e.toNat
            · rw [if_pos h3] at hbc
              exact absurd hbc (by simp)
            · rw [if_neg h3] at hbc
              have hxf : ¬x.toNat < f.toNat → ¬f.toNat < x.toNat → lexLtB xs fs = true :=
                fun _ _ => ih es fs hab hbc
              by_cases h5 : x.toNat < f.toNat
              · rw [if_pos h5]
              · rw [if_neg h5, if_neg (by omega)]
                exact hxf h5 (by omega)

/-- Connexity: two lists neither of which is below the other are equal. -/
theorem lexLtB_connex :
    ∀ a b : List Char, lexLtB a b = false → lexLtB b a = false → a = b := by
  intro a
  induction a with
  | nil =>
    intro b hab _
    cases b with
    | nil => rfl
    | cons d ds => exact absurd hab (by simp [lexLtB])
  | cons c cs ih =>
    intro b hab hba
    cases b with
    | nil => exact absurd hba (by simp [lexLtB])
    | cons d ds =>
      unfold lexLtB at hab hba
      by_cases h1 : c.toNat < d.toNat
      · rw [if_pos h1] at hab
        exact absurd hab (by simp)
      · by_cases h2 : d.toNat < c.toNat
        · rw [if_pos h2] at hba
          exact absurd hba (by simp)
        · rw [if_neg h1, if_neg h2] at hab
          rw [if_neg h2, if_neg h1] at hba
          have hc : c = d := by
            apply Char.ext
            apply UInt32.ext
            show c.toNat = d.toNat
            omega
          rw [hc, ih ds hab hba]

/-- Strings with equal character data are equal. -/
theorem stringDataEq {a b : String} (h : a.data = b.data) : a = b := by
  cases a
  cases b
  exact congrArg String.mk h

/-- Totality of Python string `<=`. -/
theorem pyStrLeB_total (a b : String) : pyStrLeB a b = true ∨ pyStrLeB b a = true := by
  unfold pyStrLeB
  rcases h : lexLtB b.data a.data with _ | _
  · left; rfl
  · right
    rw [lexLtB_asymm _ _ h]
    rfl

/-- Transitivity of Python string `<=`. -/
theorem pyStrLeB_trans (a b c : String) (hab : pyStrLeB a b = true)
    (hbc : pyStrLeB b c = true) : pyStrLeB a c = true := by
  unfold pyStrLeB at hab hbc ⊢
  simp only [Bool.not_eq_true'] at hab hbc ⊢
  by_contra hca
  have hca2 : lexLtB c.data a.data = true := by
    revert hca
    cases lexLtB c.data a.data <;> simp
  by_cases hcb : lexLtB c.data b.data = true
  · rw [hcb] at hbc
    exact absurd hbc (by simp)
  · have hcb2 : lexLtB c.data b.data = false := by
      revert hcb
      cases lexLtB c.data b.data <;> simp
    by_cases hbc2 : lexLtB b.data c.data = true
    · have := lexLtB_trans _ _ _ hbc2 hca2
      rw [this] at hab
      exact absurd hab (by simp)
    · have hbc3 : lexLtB b.data c.data = false := by
        revert hbc2
        cases lexLtB b.data c.data <;> simp
      have heq : b.data = c.data := lexLtB_connex _ _ hbc3 hcb2
      rw [← heq] at hca2
      rw [hca2] at hab
      exact absurd hab (by simp)

/-- Antisymmetry of Python string `<=`. -/
theorem pyStrLeB_antisymm (a b : String) (hab : pyStrLeB a b = true)
    (hba : pyStrLeB b a = true) : a = b := by
  unfold pyStrLeB at hab hba
  simp only [Bool.not_eq_true'] at hab hba
  exact stringDataEq (lexLtB_connex _ _ hba hab)

/-- The cons equation of `lexLtB`, for rewriting. -/
theorem lexLtB_cons (c d : Char) (cs ds : List Char) :
    lexLtB (c :: cs) (d :: ds) =
      if c.toNat < d.toNat then true
      else if d.toNat < c.toNat then false else lexLtB cs ds := rfl

/-- Appending a common head leaves the lexicographic comparison to the
tails. -/
theorem lexLtB_append_left :
    ∀ p u v : List Char, lexLtB (p ++ u) (p ++ v) = lexLtB u v := by
  intro p
  induction p with
  | nil => intro u v; rfl
  | cons c cs ih =>
    intro u v
    rw [List.cons_append, List.cons_append, lexLtB_cons,
      if_neg (by omega), if_neg (by omega)]
    exact ih u v

/-- The padded two-digit string consists of two digit characters. -/
theorem pad2_data (n : Nat) (hn : n ≤ 99) :
    (pad2 n).data = [Char.ofNat (48 + n / 10), Char.ofNat (48 + n % 10)] := by
  unfold pad2
  rw [if_pos (by omega)]

/-- Code of a digit character. -/
theorem digitCharVal (d : Nat) (hd : d ≤ 9) : (Char.ofNat (48 + d)).toNat = 48 + d := by
  interval_cases d <;> decide

/-- `pad2` is injective on two-digit numbers. -/
theorem pad2_inj {m n : Nat} (hm : m ≤ 99) (hn : n ≤ 99) (h : pad2 m = pad2 n) :
    m = n := by
  have hd := congrArg String.data h
  rw [pad2_data m hm, pad2_data n hn] at hd
  injection hd with h1 hrest
  injection hrest with h2 _
  have e1 := congrArg Char.toNat h1
  have e2 := congrArg Char.toNat h2
  rw [digitCharVal (m / 10) (by omega), digitCharVal (n / 10) (by omega)] at e1
  rw [digitCharVal (m % 10) (by omega), digitCharVal (n % 10) (by omega)] at e2
  omega

/-- Sorting any permutation of a canonical triple restores role order:
Python's `sorted` is the unique stable sort for the code-point order, and
`ProbNN.in.txt < ProbNN.out.txt < ProbNN.py` in that order. -/
theorem pySorted_triple (n : Nat) (fs : List String) (hperm : fs.Perm (tripleOf n)) :
    pySorted fs = tripleOf n := by
  haveI htot : IsTotal String (fun a b => pyStrLeB a b = true) := ⟨pyStrLeB_total⟩
  haveI htr : IsTrans String (fun a b => pyStrLeB a b = true) := ⟨pyStrLeB_trans⟩
  haveI hanti : IsAntisymm String (fun a b => pyStrLeB a b = true) := ⟨pyStrLeB_antisymm⟩
  apply List.eq_of_perm_of_sorted ((List.perm_insertionSort _ fs).trans hperm)
    (List.sorted_insertionSort _ fs)
  have hio : pyStrLeB (inName n) (outName n) = true := by
    unfold pyStrLeB inName outName
    rw [String.data_append, String.data_append, lexLtB_append_left]
    rfl
  have hip : pyStrLeB (inName n) (pyName n) = true := by
    unfold pyStrLeB inName pyName
    rw [String.data_append, String.data_append, lexLtB_append_left]
    rfl
  have hop : pyStrLeB (outName n) (pyName n) = true := by
    unfold pyStrLeB outName pyName
    rw [String.data_append, String.data_append, lexLtB_append_left]
    rfl
  show List.Sorted (fun a b => pyStrLeB a b = true) [inName n, outName n, pyName n]
  rw [List.sorted_cons, List.sorted_cons]
  refine ⟨?_, ?_, List.sorted_singleton _⟩
  · intro b hb
    rcases List.mem_cons.1 hb with rfl | hb2
    · exact hio
    · rw [List.mem_singleton.1 hb2]
      exact hip
  · intro b hb
    rw [List.mem_singleton.1 hb]
    exact hop

/-- A name without slashes is its own basename. -/
theorem basename_eq_self {s : String} (h : ∀ c ∈ s.data, c ≠ '/') : basename s = s := by
  unfold basename
  have ht : s.data.reverse.takeWhile (fun c => decide (c ≠ '/')) = s.data.reverse := by
    rw [List.takeWhile_eq_self_iff]
    intro c hc
    simp only [decide_eq_true_eq]
    exact h c (List.mem_reverse.1 hc)
  rw [ht, List.reverse_reverse]

/-- A name without slashes has empty dirname. -/
theorem dirname_eq_empty {s : String} (h : ∀ c ∈ s.data, c ≠ '/') : dirname s = "" := by
  unfold dirname
  have hd : s.data.reverse.dropWhile (fun c => decide (c ≠ '/')) = [] := by
    rw [List.dropWhile_eq_nil_iff]
    intro c hc
    simp only [decide_eq_true_eq]
    exact h c (List.mem_reverse.1 hc)
  rw [hd]
  simp

/-- Digit characters: classification and value. -/
theorem dchar_isDigit (d : Nat) (hd : d ≤ 9) : (Char.ofNat (48 + d)).isDigit = true := by
  interval_cases d <;> decide

theorem dchar_ne_slash (d : Nat) (hd : d ≤ 9) : Char.ofNat (48 + d) ≠ '/' := by
  interval_cases d <;> decide

theorem digitVal_dchar (d : Nat) (hd : d ≤ 9) : digitVal (Char.ofNat (48 + d)) = d := by
  interval_cases d <;> decide

/-- The characters of `probStem n ++ ext`. -/
theorem stemExt_data (n : Nat) (hn : n ≤ 99) (ext : String) :
    (probStem n ++ ext).data =
      'P' :: 'r' :: 'o' :: 'b' :: Char.ofNat (48 + n / 10) ::
        Char.ofNat (48 + n % 10) :: ext.data := by
  unfold probStem
  rw [String.data_append, String.data_append, pad2_data n hn]
  rfl

/-- Canonical names contain no slash (for extensions that contain none). -/
theorem canonical_no_slash (n : Nat) (hn : n ≤ 99) (ext : String)
    (hext : ∀ c ∈ ext.data, c ≠ '/') :
    ∀ c ∈ (probStem n ++ ext).data, c ≠ '/' := by
  rw [stemExt_data n hn]
  intro c hc
  simp only [List.mem_cons] at hc
  rcases hc with rfl | rfl | rfl | rfl | rfl | rfl | hc
  · decide
  · decide
  · decide
  · decide
  · exact dchar_ne_slash _ (by omega)
  · exact dchar_ne_slash _ (by omega)
  · exact hext c hc

/-- `fileKey` over a canonical name recovers the problem number: the
basename is the name itself, characters 4-5 are the two padded digits, and
`int` parses them back. -/
theorem fileKey_canonical (n : Nat) (hn : n ≤ 99) (ext : String)
    (hext : ∀ c ∈ ext.data, c ≠ '/') :
    fileKey (probStem n ++ ext) = Except.ok n := by
  unfold fileKey
  rw [basename_eq_self (canonical_no_slash n hn ext hext), stemExt_data n hn]
  have hsl : pySlice
      ('P' :: 'r' :: 'o' :: 'b' :: Char.ofNat (48 + n / 10) ::
        Char.ofNat (48 + n % 10) :: ext.data) 4 6 =
      [Char.ofNat (48 + n / 10), Char.ofNat (48 + n % 10)] := rfl
  rw [hsl]
  unfold pyInt
  rw [if_pos ⟨by simp, by
    simp only [List.all_cons, List.all_nil, Bool.and_true]
    rw [dchar_isDigit _ (by omega), dchar_isDigit _ (by omega)]
    rfl⟩]
  show Except.ok (10 * (10 * 0 + digitVal (Char.ofNat (48 + n / 10))) +
      digitVal (Char.ofNat (48 + n % 10))) = Except.ok n
  rw [digitVal_dchar _ (by omega), digitVal_dchar _ (by omega)]
  congr 1
  omega

theorem fileKeyD_canonical (n : Nat) (hn : n ≤ 99) (ext : String)
    (hext : ∀ c ∈ ext.data, c ≠ '/') :
    fileKeyD (probStem n ++ ext) = n := by
  unfold fileKeyD
  rw [fileKey_canonical n hn ext hext]

/-- The three canonical names of problem `n` all pass the discovery
regex. -/
theorem cqRegex_canonical (n : Nat) (hn : n ≤ 99) :
    cqRegexAccepts (inName n) = true ∧ cqRegexAccepts (outName n) = true ∧
      cqRegexAccepts (pyName n) = true := by
  refine ⟨?_, ?_, ?_⟩ <;>
    [(unfold cqRegexAccepts inName; rw [stemExt_data n hn ".in.txt"]);
     (unfold cqRegexAccepts outName; rw [stemExt_data n hn ".out.txt"]);
     (unfold cqRegexAccepts pyName; rw [stemExt_data n hn ".py"])] <;>
    · show ((Char.ofNat (48 + n / 10)).isDigit && (Char.ofNat (48 + n % 10)).isDigit &&
        _) = true
      rw [dchar_isDigit _ (by omega), dchar_isDigit _ (by omega)]
      rfl

/-- In an association list with distinct keys, a key determines its
value. -/
theorem keyUnique {β : Type} :
    ∀ (l : List (Nat × β)), (l.map Prod.fst).Nodup →
      ∀ {n : Nat} {v w : β}, (n, v) ∈ l → (n, w) ∈ l → v = w := by
  intro l
  induction l with
  | nil =>
    intro _ n v w hv _
    exact absurd hv (List.not_mem_nil _)
  | cons p ps ih =>
    intro hnd n v w hv hw
    rw [List.map_cons, List.nodup_cons] at hnd
    rcases List.mem_cons.1 hv with rfl | hv2
    · rcases List.mem_cons.1 hw with h | hw2
      · injection h with _ h2
        exact h2.symm
      · exact absurd (List.mem_map_of_mem Prod.fst hw2) (by simpa using hnd.1)
    · rcases List.mem_cons.1 hw with rfl | hw2
      · exact absurd (List.mem_map_of_mem Prod.fst hv2) (by simpa using hnd.1)
      · exact ih hnd.2 hv2 hw2

/-- The cons equation of `List.lookup` with propositional condition. -/
theorem lookup_cons (k a : Nat) (b : List String) (l : List (Nat × List String)) :
    List.lookup k ((a, b) :: l) = if k = a then some b else List.lookup k l := by
  by_cases h : k = a
  · subst h
    simp [List.lookup]
  · have hba : (k == a) = false := by simp [h]
    simp [List.lookup, hba, h]

/-- Applying the append-update function to one entry (the projections of
the literal pair reduced away). -/
theorem upd_app (n : Nat) (f : String) (a : Nat) (b : List String) :
    (if (a, b).1 = n then ((a, b).1, (a, b).2 ++ [f]) else (a, b)) =
      if a = n then (a, b ++ [f]) else (a, b) := rfl

/-- Updating the entry of key `n` reaches the entry `lookup` sees. -/
theorem lookup_map_upd_eq (n : Nat) (f : String) :
    ∀ (g : List (Nat × List String)) (v : List String), g.lookup n = some v →
      (g.map (fun p => if p.1 = n then (p.1, p.2 ++ [f]) else p)).lookup n =
        some (v ++ [f]) := by
  intro g
  induction g with
  | nil => intro v hv; exact absurd hv (by simp)
  | cons p gs ih =>
    intro v hv
    obtain ⟨a, b⟩ := p
    rw [lookup_cons] at hv
    rw [List.map_cons, upd_app]
    by_cases han : n = a
    · rw [if_pos han] at hv
      injection hv with hv
      subst hv
      rw [if_pos han.symm, lookup_cons, if_pos han]
    · rw [if_neg han] at hv
      rw [if_neg (fun h => han h.symm), lookup_cons, if_neg han]
      exact ih v hv

/-- Updating the entry of key `n` leaves every other lookup unchanged. -/
theorem lookup_map_upd_ne (n : Nat) (f : String) (k : Nat) (hk : k ≠ n) :
    ∀ (g : List (Nat × List String)),
      (g.map (fun p => if p.1 = n then (p.1, p.2 ++ [f]) else p)).lookup k =
        g.lookup k := by
  intro g
  induction g with
  | nil => rfl
  | cons p gs ih =>
    obtain ⟨a, b⟩ := p
    rw [List.map_cons, upd_app]
    by_cases hna : a = n
    · rw [if_pos hna, lookup_cons, lookup_cons,
        if_neg (by omega : ¬k = a), if_neg (by omega : ¬k = a)]
      exact ih
    · rw [if_neg hna, lookup_cons, lookup_cons]
      by_cases hka : k = a
      · rw [if_pos hka, if_pos hka]
      · rw [if_neg hka, if_neg hka]
        exact ih

/-- The keys of a dictionary after one insertion. -/
theorem map_fst_groupIns (g : List (Nat × List String)) (n : Nat) (f : String) :
    (groupIns g n f).map Prod.fst =
      if (g.lookup n).isSome then g.map Prod.fst else g.map Prod.fst ++ [n] := by
  unfold groupIns
  split
  case isTrue h =>
    rw [List.map_map]
    congr 1
    funext p
    by_cases hp : p.1 = n <;> simp [hp]
  case isFalse h =>
    rw [List.map_append]
    rfl

/-- How one insertion changes each lookup. -/
theorem lookup_groupIns (g : List (Nat × List String)) (n : Nat) (f : String) (k : Nat) :
    (groupIns g n f).lookup k =
      if k = n then some (lookupVal n g ++ [f]) else g.lookup k := by
  unfold groupIns
  by_cases hs : (g.lookup n).isSome
  · rw [if_pos hs]
    by_cases hk : k = n
    · subst hk
      obtain ⟨v, hv⟩ := Option.isSome_iff_exists.1 hs
      rw [lookup_map_upd_eq k f g v hv, if_pos rfl]
      unfold lookupVal
      rw [hv]
      rfl
    · rw [lookup_map_upd_ne n f k hk g, if_neg hk]
  · rw [if_neg hs, List.lookup_append]
    have hnone : g.lookup n = none := Option.not_isSome_iff_eq_none.1 hs
    by_cases hk : k = n
    · subst hk
      rw [hnone, if_pos rfl]
      unfold lookupVal
      rw [hnone]
      simp [List.lookup]
    · rw [if_neg hk]
      have h2 : List.lookup k [(n, [f])] = none := by
        have hba : (k == n) = false := by simp [hk]
        simp [List.lookup, hba]
      rw [h2, Option.or_none]

/-- A key is present exactly when `lookup` finds it. -/
theorem lookup_isSome_iff (k : Nat) :
    ∀ (g : List (Nat × List String)),
      (g.lookup k).isSome = true ↔ k ∈ g.map Prod.fst := by
  intro g
  induction g with
  | nil => simp [List.lookup]
  | cons p gs ih =>
    obtain ⟨a, b⟩ := p
    by_cases hka : k = a
    · subst hka
      simp [List.lookup]
    · have hba : (k == a) = false := by simp [hka]
      simp only [List.lookup, hba, List.map_cons, List.mem_cons]
      rw [ih]
      constructor
      · exact Or.inr
      · rintro (h | h)
        · exact absurd h hka
        · exact h

/-- With distinct keys, membership determines lookup. -/
theorem lookup_eq_of_mem_nodup :
    ∀ (g : List (Nat × List String)), (g.map Prod.fst).Nodup →
      ∀ {k : Nat} {v : List String}, (k, v) ∈ g → g.lookup k = some v := by
  intro g
  induction g with
  | nil => intro _ k v hv; exact absurd hv (List.not_mem_nil _)
  | cons p gs ih =>
    intro hnd k v hv
    obtain ⟨a, b⟩ := p
    rw [List.map_cons, List.nodup_cons] at hnd
    rcases List.mem_cons.1 hv with h | h2
    · injection h with h1 h2
      subst h1
      simp [List.lookup, h2]
    · by_cases hka : k = a
      · subst hka
        exact absurd (List.mem_map_of_mem Prod.fst h2) (by simpa using hnd.1)
      · have hba : (k == a) = false := by simp [hka]
        simp only [List.lookup, hba]
        exact ih hnd.2 h2

/-- The monadic grouping fold equals the pure one when every key
parses. -/
theorem groupM_eq_pure :
    ∀ (files : List String) (g0 : List (Nat × List String)),
      (∀ f ∈ files, fileKey f = Except.ok (fileKeyD f)) →
      (files.foldlM (fun g f => do
        let n ← fileKey f
        pure (groupIns g n f)) g0 : Except PyError _) =
        Except.ok (groupPure g0 files) := by
  intro files
  induction files with
  | nil => intro g0 _; rfl
  | cons f fs ih =>
    intro g0 hpar
    rw [List.foldlM_cons]
    rw [hpar f (List.mem_cons_self _ _)]
    show (fs.foldlM _ (groupIns g0 (fileKeyD f) f) : Except PyError _) = _
    rw [ih (groupIns g0 (fileKeyD f) f) (fun x hx => hpar x (List.mem_cons_of_mem _ hx))]
    rfl

/-- The value under each key of the pure grouping fold: exactly the input
files with that key, in input order. -/
theorem groupPure_lookupVal :
    ∀ (files : List String) (g0 : List (Nat × List String)) (k : Nat),
      lookupVal k (groupPure g0 files) =
        lookupVal k g0 ++ files.filter (fun f => decide (fileKeyD f = k)) := by
  intro files
  induction files with
  | nil => intro g0 k; simp [groupPure]
  | cons f fs ih =>
    intro g0 k
    show lookupVal k (groupPure (groupIns g0 (fileKeyD f) f) fs) = _
    rw [ih]
    rw [List.filter_cons]
    have hlv : lookupVal k (groupIns g0 (fileKeyD f) f) =
        lookupVal k g0 ++ (if fileKeyD f = k then [f] else []) := by
      unfold lookupVal
      rw [lookup_groupIns]
      by_cases hk : k = fileKeyD f
      · rw [if_pos hk, if_pos (by omega)]
        subst hk
        rfl
      · rw [if_neg hk, if_neg (by omega)]
        simp
    rw [hlv]
    by_cases hf : fileKeyD f = k
    · rw [if_pos hf, if_pos (by simp [hf])]
      simp
    · rw [if_neg hf, if_neg (by simp [hf])]
      simp

/-- The keys of the pure grouping fold. -/
theorem groupPure_keys_mem :
    ∀ (files : List String) (g0 : List (Nat × List String)) (k : Nat),
      k ∈ (groupPure g0 files).map Prod.fst ↔
        k ∈ g0.map Prod.fst ∨ ∃ f ∈ files, fileKeyD f = k := by
  intro files
  induction files with
  | nil => intro g0 k; simp [groupPure]
  | cons f fs ih =>
    intro g0 k
    show k ∈ (groupPure (groupIns g0 (fileKeyD f) f) fs).map Prod.fst ↔ _
    rw [ih]
    have hstep : k ∈ (groupIns g0 (fileKeyD f) f).map Prod.fst ↔
        k ∈ g0.map Prod.fst ∨ k = fileKeyD f := by
      rw [map_fst_groupIns]
      split
      case isTrue h =>
        constructor
        · exact Or.inl
        · rintro (h2 | rfl)
          · exact h2
          · exact (lookup_isSome_iff _ _).1 h
      case isFalse h =>
        simp only [List.mem_append, List.mem_singleton]
    rw [hstep]
    simp only [List.mem_cons]
    constructor
    · rintro ((h | rfl) | ⟨x, hx, rfl⟩)
      · exact Or.inl h
      · exact Or.inr ⟨f, Or.inl rfl, rfl⟩
      · exact Or.inr ⟨x, Or.inr hx, rfl⟩
    · rintro (h | ⟨x, (rfl | hx), rfl⟩)
      · exact Or.inl (Or.inl h)
      · exact Or.inl (Or.inr rfl)
      · exact Or.inr ⟨x, hx, rfl⟩

/-- The pure grouping fold keeps keys distinct. -/
theorem groupPure_keys_nodup :
    ∀ (files : List String) (g0 : List (Nat × List String)),
      (g0.map Prod.fst).Nodup → ((groupPure g0 files).map Prod.fst).Nodup := by
  intro files
  induction files with
  | nil => intro g0 h; exact h
  | cons f fs ih =>
    intro g0 h
    show ((groupPure (groupIns g0 (fileKeyD f) f) fs).map Prod.fst).Nodup
    apply ih
    rw [map_fst_groupIns]
    split
    case isTrue _ => exact h
    case isFalse hno =>
      have hnotmem : fileKeyD f ∉ g0.map Prod.fst := by
        intro hmem
        exact hno ((lookup_isSome_iff _ _).2 hmem)
      simp [List.nodup_append, h, hnotmem]

/-- `fileKey` over any member of a canonical triple recovers the problem
number. -/
theorem fileKey_mem_tripleOf (n : Nat) (hn : n ≤ 99) :
    ∀ f ∈ tripleOf n, fileKey f = Except.ok n := by
  intro f hf
  simp only [tripleOf, List.mem_cons, List.not_mem_nil, or_false] at hf
  rcases hf with rfl | rfl | rfl
  · exact fileKey_canonical n hn ".in.txt" (by decide)
  · exact fileKey_canonical n hn ".out.txt" (by decide)
  · exact fileKey_canonical n hn ".py" (by decide)

theorem fileKeyD_mem_tripleOf (n : Nat) (hn : n ≤ 99) :
    ∀ f ∈ tripleOf n, fileKeyD f = n := by
  intro f hf
  unfold fileKeyD
  rw [fileKey_mem_tripleOf n hn f hf]

/-- Filtering a canonical triple by key keeps all of it or none of it. -/
theorem filter_key_tripleOf (n k : Nat) (hn : n ≤ 99) :
    (tripleOf n).filter (fun f => decide (fileKeyD f = k)) =
      if n = k then tripleOf n else [] := by
  have h1 : fileKeyD (inName n) = n :=
    fileKeyD_mem_tripleOf n hn _ (by simp [tripleOf])
  have h2 : fileKeyD (outName n) = n :=
    fileKeyD_mem_tripleOf n hn _ (by simp [tripleOf])
  have h3 : fileKeyD (pyName n) = n :=
    fileKeyD_mem_tripleOf n hn _ (by simp [tripleOf])
  by_cases h : n = k
  · subst h
    simp [tripleOf, List.filter_cons, h1, h2, h3]
  · rw [if_neg h]
    simp [tripleOf, List.filter_cons, h1, h2, h3, h]

/-- Filtering a disjoint union of canonical triples by key yields the one
triple of that key, if present. -/
theorem filter_key_flatten :
    ∀ (ns : List Nat), ns.Nodup → (∀ n ∈ ns, n ≤ 99) → ∀ (k : Nat),
      ((ns.map tripleOf).flatten).filter (fun f => decide (fileKeyD f = k)) =
        if k ∈ ns then tripleOf k else [] := by
  intro ns
  induction ns with
  | nil =>
    intro _ _ k
    simp
  | cons n ms ih =>
    intro hnd hle k
    rw [List.nodup_cons] at hnd
    rw [List.map_cons, List.flatten_cons, List.filter_append,
      filter_key_tripleOf n k (hle n (List.mem_cons_self _ _)),
      ih hnd.2 (fun m hm => hle m (List.mem_cons_of_mem _ hm)) k]
    by_cases h : n = k
    · subst h
      rw [if_pos rfl, if_pos (List.mem_cons_self _ _),
        if_neg (fun hk => hnd.1 hk), List.append_nil]
    · rw [if_neg h, List.nil_append]
      by_cases hk : k ∈ ms
      · rw [if_pos hk, if_pos (List.mem_cons_of_mem _ hk)]
      · rw [if_neg hk, if_neg (by
          intro hc
          rcases List.mem_cons.1 hc with hc | hc
          · exact h hc.symm
          · exact hk hc)]

/-- C8: when the directory holds exactly a union of well-formed triples
(one per problem number in the duplicate-free list `ns`, in any order),
discovery keeps every file, grouping succeeds, and the groups are exactly
one per problem number present, each holding precisely its three files —
so no group ever has more than three members. -/
theorem C8_triples_group_exactly (ns : List Nat) (listing : List String)
    (hnd : ns.Nodup) (hle : ∀ n ∈ ns, n ≤ 99)
    (hperm : listing.Perm ((ns.map tripleOf).flatten)) :
    get_cq_files true true listing = Except.ok listing ∧
    ∃ grouped, group_cq_files listing = Except.ok grouped ∧
      ((grouped.map Prod.fst).Nodup ∧
        ∀ k, k ∈ grouped.map Prod.fst ↔ k ∈ ns) ∧
      (∀ k ∈ ns, (lookupVal k grouped).Perm (tripleOf k)) ∧
      (∀ p ∈ grouped, p.2.length = 3) := by
  have hmem : ∀ f ∈ listing, ∃ n ∈ ns, f ∈ tripleOf n := by
    intro f hf
    have h2 := hperm.mem_iff.1 hf
    rw [List.mem_flatten] at h2
    obtain ⟨l, hl, hfl⟩ := h2
    rw [List.mem_map] at hl
    obtain ⟨n, hn, rfl⟩ := hl
    exact ⟨n, hn, hfl⟩
  have hacc : ∀ f ∈ listing, cqRegexAccepts f = true := by
    intro f hf
    obtain ⟨n, hn, hfn⟩ := hmem f hf
    have hc := cqRegex_canonical n (hle n hn)
    simp only [tripleOf, List.mem_cons, List.not_mem_nil, or_false] at hfn
    rcases hfn with rfl | rfl | rfl
    · exact hc.1
    · exact hc.2.1
    · exact hc.2.2
  have hpar : ∀ f ∈ listing, fileKey f = Except.ok (fileKeyD f) := by
    intro f hf
    obtain ⟨n, hn, hfn⟩ := hmem f hf
    have hk := fileKey_mem_tripleOf n (hle n hn) f hfn
    have hd : fileKeyD f = n := by unfold fileKeyD; rw [hk]
    rw [hk, hd]
  have hkeyf : ∀ f ∈ listing, ∀ n ∈ ns, f ∈ tripleOf n → fileKeyD f = n := by
    intro f _ n hn hfn
    unfold fileKeyD
    rw [fileKey_mem_tripleOf n (hle n hn) f hfn]
  refine ⟨?_, groupPure [] listing, ?_, ?_, ?_, ?_⟩
  · unfold get_cq_files
    rw [List.filter_eq_self.2 hacc]
    rfl
  · unfold group_cq_files
    exact groupM_eq_pure listing [] hpar
  · constructor
    · exact groupPure_keys_nodup listing [] (by simp)
    · intro k
      rw [groupPure_keys_mem listing [] k]
      constructor
      · rintro (h | ⟨f, hf, rfl⟩)
        · simp at h
        · obtain ⟨n, hn, hfn⟩ := hmem f hf
          rw [hkeyf f hf n hn hfn]
          exact hn
      · intro hk
        refine Or.inr ⟨inName k, ?_, ?_⟩
        · refine hperm.mem_iff.2 (List.mem_flatten.2
            ⟨tripleOf k, List.mem_map_of_mem tripleOf hk, by simp [tripleOf]⟩)
        · exact fileKeyD_mem_tripleOf k (hle k hk) _ (by simp [tripleOf])
  · intro k hk
    rw [groupPure_lookupVal listing [] k,
      show lookupVal k ([] : List (Nat × List String)) = [] from rfl,
      List.nil_append]
    have hfil := hperm.filter (fun f => decide (fileKeyD f = k))
    rw [filter_key_flatten ns hnd hle k, if_pos hk] at hfil
    exact hfil
  · intro p hp
    have hnd2 : ((groupPure [] listing).map Prod.fst).Nodup :=
      groupPure_keys_nodup listing [] (by simp)
    have hlk := lookup_eq_of_mem_nodup _ hnd2 hp
    have hkmem : p.1 ∈ (groupPure [] listing).map Prod.fst :=
      List.mem_map_of_mem Prod.fst hp
    have hkns : p.1 ∈ ns := by
      rw [groupPure_keys_mem listing [] p.1] at hkmem
      rcases hkmem with h | ⟨f, hf, heq⟩
      · simp at h
      · obtain ⟨n, hn, hfn⟩ := hmem f hf
        rw [← heq, hkeyf f hf n hn hfn]
        exact hn
    have hval : lookupVal p.1 (groupPure [] listing) = p.2 := by
      unfold lookupVal
      rw [hlk]
      rfl
    have hpm : (lookupVal p.1 (groupPure [] listing)).Perm (tripleOf p.1) := by
      rw [groupPure_lookupVal listing [] p.1,
        show lookupVal p.1 ([] : List (Nat × List String)) = [] from rfl,
        List.nil_append]
      have hfil := hperm.filter (fun f => decide (fileKeyD f = p.1))
      rw [filter_key_flatten ns hnd hle p.1, if_pos hkns] at hfil
      exact hfil
    rw [hval] at hpm
    exact hpm.length_eq

/-- C8 at a concrete directory: two problems, listing scrambled. -/
theorem C8_triples_group_exactly_witness :
    get_cq_files true true ["Prob12.py", "Prob03.out.txt", "Prob12.in.txt",
        "Prob03.py", "Prob12.out.txt", "Prob03.in.txt"] =
      Except.ok ["Prob12.py", "Prob03.out.txt", "Prob12.in.txt",
        "Prob03.py", "Prob12.out.txt", "Prob03.in.txt"] ∧
    ∃ grouped, group_cq_files ["Prob12.py", "Prob03.out.txt", "Prob12.in.txt",
        "Prob03.py", "Prob12.out.txt", "Prob03.in.txt"] = Except.ok grouped ∧
      ((grouped.map Prod.fst).Nodup ∧
        ∀ k, k ∈ grouped.map Prod.fst ↔ k ∈ [12, 3]) ∧
      (∀ k ∈ [12, 3], (lookupVal k grouped).Perm (tripleOf k)) ∧
      (∀ p ∈ grouped, p.2.length = 3) :=
  C8_triples_group_exactly [12, 3]
    ["Prob12.py", "Prob03.out.txt", "Prob12.in.txt",
      "Prob03.py", "Prob12.out.txt", "Prob03.in.txt"]
    (by decide) (by decide) (by decide)

/-- C7: `create_test_funcs` creates one test per group of exactly three
files — named `test_prob` followed by the zero-padded two-digit problem
number and bound to the sorted file list — and creates none for a group of
any other size; and for a group that is (any permutation of) the canonical
triple, the sorted binding is exactly role order: input, expected output,
solution. -/
theorem C7_one_test_per_complete_group (grouped : List (Nat × List String))
    (hkeys : (grouped.map Prod.fst).Nodup)
    (hsmall : ∀ p ∈ grouped, p.1 ≤ 99)
    (n : Nat) (fs : List String) (hmem : (n, fs) ∈ grouped) :
    (fs.length = 3 →
      ("test_prob" ++ pad2 n, pySorted fs) ∈ create_test_funcs grouped) ∧
    (fs.length ≠ 3 →
      ∀ bound, ("test_prob" ++ pad2 n, bound) ∉ create_test_funcs grouped) ∧
    (fs.Perm (tripleOf n) → pySorted fs = tripleOf n) := by
  refine ⟨?_, ?_, pySorted_triple n fs⟩
  · intro h3
    unfold create_test_funcs
    exact List.mem_filterMap.2 ⟨(n, fs), hmem, by rw [if_pos h3]⟩
  · intro h3 bound hin
    unfold create_test_funcs at hin
    obtain ⟨⟨m, gs⟩, hmem2, heq⟩ := List.mem_filterMap.1 hin
    by_cases hg3 : gs.length = 3
    · rw [if_pos hg3] at heq
      injection heq with heq1
      injection heq1 with hname _
      have hmn : m = n := by
        apply pad2_inj (hsmall _ hmem2) (hsmall _ hmem)
        apply stringDataEq
        have := congrArg String.data hname
        rw [String.data_append, String.data_append] at this
        exact List.append_cancel_left this
      subst hmn
      exact h3 (by rw [keyUnique grouped hkeys hmem hmem2]; exact hg3)
    · rw [if_neg hg3] at heq
      exact absurd heq (by simp)

/-- C7 witness: a complete triple gets exactly one test, in role order; an
incomplete group gets none. -/
theorem C7_one_test_per_complete_group_witness :
    ("test_prob03", ["Prob03.in.txt", "Prob03.out.txt", "Prob03.py"]) ∈
        create_test_funcs
          [(3, ["Prob03.py", "Prob03.in.txt", "Prob03.out.txt"]), (5, ["Prob05.py"])] ∧
    ("test_prob05", ["Prob05.py"]) ∉
        create_test_funcs
          [(3, ["Prob03.py", "Prob03.in.txt", "Prob03.out.txt"]), (5, ["Prob05.py"])] := by
  constructor
  · have h := (C7_one_test_per_complete_group
      [(3, ["Prob03.py", "Prob03.in.txt", "Prob03.out.txt"]), (5, ["Prob05.py"])]
      (by decide) (by decide) 3 ["Prob03.py", "Prob03.in.txt", "Prob03.out.txt"]
      (by decide)).1 (by decide)
    exact h
  · intro hin
    exact (C7_one_test_per_complete_group
      [(3, ["Prob03.py", "Prob03.in.txt", "Prob03.out.txt"]), (5, ["Prob05.py"])]
      (by decide) (by decide) 5 ["Prob05.py"] (by decide)).2.1 (by decide)
      ["Prob05.py"] hin

/-- C1: on actual output `["A\n","B\n"]` against expected `["A\n","C\n"]`,
`check_solution` does flag line 2 (the actual line `"B\n"`, diff entry
`"- B\n"`) and does write the artifact file with content `"A\nB\n"`, but
it then crashes with `StopIteration`: the diff holds only one entry after
the flagged one (`"+ C\n"`), and the second `next(diffs)` in the
`AssertionError` arguments raises, so the expected line `"C\n"` is never
reported and no `AssertionError` is ever constructed. -/
theorem C1_divergence_stops_iteration :
    check_solution "Prob01.in.txt" "Prob01.out.txt" "Prob01.py" "1 2\n" "A\nC\n"
        ⟨"A\nB\n", ""⟩ =
      { outcome := .stopIteration 2 "- B\n" "Prob01.error.txt",
        artifact := some ("Prob01.error.txt", "A\nB\n") } := by
  decide

/-- C2: whenever the solution process writes a nonempty error stream (and
the staging branch is not taken, i.e. the process actually ran),
`check_solution` raises the execution `Exception` carrying that text; the
output comparison never happens and no artifact is written, whatever the
standard output and the expected output are. -/
theorem C2_error_stream_precedence (in_file out_file solution_file inC outC : String)
    (proc : ProcResult) (hdir : dirname in_file = dirname solution_file)
    (herr : proc.stderr ≠ "") :
    check_solution in_file out_file solution_file inC outC proc =
      { outcome := .executionError proc.stderr, artifact := none } := by
  unfold check_solution
  simp [stagingTaken, hdir, strLength_ne_zero herr]

/-- C2 witness: a run whose standard output equals the expected output
exactly, yet whose nonempty error stream makes the Verifier fail. -/
theorem C2_error_stream_precedence_witness :
    check_solution "Prob01.in.txt" "Prob01.out.txt" "Prob01.py" "1 2\n" "A\n"
        ⟨"A\n", "boom"⟩ =
      { outcome := .executionError "boom", artifact := none } :=
  C2_error_stream_precedence "Prob01.in.txt" "Prob01.out.txt" "Prob01.py" "1 2\n"
    "A\n" ⟨"A\n", "boom"⟩ (by decide) (by decide)

/-- C3: whenever the solution's standard error is empty and its captured
standard output, normalized (carriage returns stripped, split into
newline-retaining lines), equals the expected-output file content
normalized the same way, `check_solution` returns normally (no result
value) and writes no artifact file: the self-comparison diff marks every
line unchanged, so the flagged-line scan finds nothing. -/
theorem C3_equal_output_passes (in_file out_file solution_file inC outC : String)
    (proc : ProcResult)
    (hdir : dirname in_file = dirname solution_file)
    (herr : proc.stderr = "")
    (hout : normalize proc.stdout = normalize outC) :
    check_solution in_file out_file solution_file inC outC proc =
      { outcome := .ok, artifact := none } := by
  unfold check_solution
  rw [if_neg (by unfold stagingTaken; rw [hdir]; simp)]
  rw [herr]
  rw [if_neg (by simp [String.length])]
  rw [hout]
  simp only [Differ.compare_self]
  rw [firstFlagged_none ((normalize outC).map (fun s => " " ++ " " ++ s)) 1 (by
    intro d hd
    obtain ⟨s, _, rfl⟩ := List.mem_map.1 hd
    exact pyStartsWith_twoSpace s)]

/-- C3 witness: a solution whose output equals its expected output (after
carriage-return stripping) passes and leaves no artifact. -/
theorem C3_equal_output_passes_witness :
    check_solution "Prob01.in.txt" "Prob01.out.txt" "Prob01.py" "1 2\n" "A\r\nB\r\n"
        ⟨"A\nB\n", ""⟩ =
      { outcome := .ok, artifact := none } :=
  C3_equal_output_passes "Prob01.in.txt" "Prob01.out.txt" "Prob01.py" "1 2\n"
    "A\r\nB\r\n" ⟨"A\nB\n", ""⟩ rfl rfl (by decide)

/-- C4: the comparison loop itself always terminates, but reporting a
divergence can raise an error other than the divergence failure: on a pure
insertion at the end (actual output empty, expected `["A\n"]`) the diff is
the single entry `"+ A\n"`, the first `next(diffs)` raises
`StopIteration`, and the run crashes instead of failing with the
`AssertionError` (the artifact, here empty, is still written first). -/
theorem C4_reporting_crashes_on_insertion :
    check_solution "Prob01.in.txt" "Prob01.out.txt" "Prob01.py" "" "A\n" ⟨"", ""⟩ =
      { outcome := .stopIteration 1 "+ A\n" "Prob01.error.txt",
        artifact := some ("Prob01.error.txt", "") } := by
  decide

/-- C5: whenever the input file and the solution file are in different
directories, the staging branch is entered and its very first copy,
`shutil.copyfile(in_file, tmpdirname)`, has the fresh temporary directory
itself as destination and raises `IsADirectoryError`: nothing is staged,
the solution never runs, and the leaked first `TemporaryDirectory` object
is never explicitly cleaned up. -/
theorem C5_staging_branch_crashes (in_file out_file solution_file inC outC : String)
    (proc : ProcResult) (hdir : dirname in_file ≠ dirname solution_file) :
    check_solution in_file out_file solution_file inC outC proc =
      { outcome := .stagingCrash, artifact := none } := by
  unfold check_solution
  simp [stagingTaken, hdir]

/-- C5 witness: input and solution in different directories. -/
theorem C5_staging_branch_crashes_witness :
    check_solution "/a/Prob03.in.txt" "/a/Prob03.out.txt" "/b/Prob03.py" "" "A\n"
        ⟨"A\n", ""⟩ =
      { outcome := .stagingCrash, artifact := none } :=
  C5_staging_branch_crashes "/a/Prob03.in.txt" "/a/Prob03.out.txt" "/b/Prob03.py"
    "" "A\n" ⟨"A\n", ""⟩ (by decide)

/-- C9: with a missing or non-directory target path, `get_cq_files` raises
`OSError` and `main` therefore aborts before any test case is built; with
a valid directory it raises nothing and its result is the pure filter of
the directory listing (it performs no side effect: the result depends on
nothing but the listing). -/
theorem C9_target_dir_check (pathExists pathIsDir : Bool) (listing : List String) :
    (¬ (pathExists && pathIsDir) = true →
      get_cq_files pathExists pathIsDir listing = .error .osError ∧
      mainTests pathExists pathIsDir listing = .error .osError) ∧
    ((pathExists && pathIsDir) = true →
      get_cq_files pathExists pathIsDir listing = .ok (listing.filter cqRegexAccepts)) := by
  constructor
  · intro h
    have hg : get_cq_files pathExists pathIsDir listing = .error .osError := by
      unfold get_cq_files
      simp_all
    exact ⟨hg, by unfold mainTests; rw [hg]; rfl⟩
  · intro h
    unfold get_cq_files
    simp [h]

/-- C9 witness: a missing path aborts the run; a valid one filters. -/
theorem C9_target_dir_check_witness :
    get_cq_files false true ["Prob03.py"] = .error .osError ∧
    mainTests false true ["Prob03.py"] = .error .osError ∧
    get_cq_files true true ["Prob03.py", "junk"] = .ok ["Prob03.py"] := by
  refine ⟨((C9_target_dir_check false true ["Prob03.py"]).1 (by decide)).1,
    ((C9_target_dir_check false true ["Prob03.py"]).1 (by decide)).2, ?_⟩
  have h := (C9_target_dir_check true true ["Prob03.py", "junk"]).2 (by decide)
  exact h.trans rfl

/-- C6 counterexample: `"Prob03.pyc"` is not of the form `Prob##.in.txt`,
`Prob##.out.txt` or `Prob##.py`, yet Discovery returns it: `re.match`
anchors the pattern at the start of the name only. -/
theorem C6_unanchored_regex_counterexample :
    get_cq_files true true ["Prob03.pyc"] = .ok ["Prob03.pyc"] ∧
      specExactCqName "Prob03.pyc" = false := by
  constructor
  · rfl
  · decide

/-- C6 amended: for every directory, Discovery returns exactly the
filenames that BEGIN with one of `Prob##.in.txt`, `Prob##.out.txt`,
`Prob##.py` (`##` two decimal digits): the regex is matched with
`re.match`, unanchored on the right, so anything may follow the matched
head (e.g. `Prob03.pyc` is included). -/
theorem C6_discovery_filters_by_head (listing : List String) (f : String) :
    get_cq_files true true listing = .ok (listing.filter cqRegexAccepts) ∧
    (f ∈ listing.filter cqRegexAccepts ↔ f ∈ listing ∧ cqRegexAccepts f = true) ∧
    (cqRegexAccepts f = true ↔
      ∃ g t, specExactCqName g = true ∧ f.data = g.data ++ t) := by
  refine ⟨rfl, List.mem_filter, ?_, ?_⟩
  · intro h
    unfold cqRegexAccepts at h
    split at h
    case _ d1 d2 rest heq =>
      simp only [Bool.and_eq_true, Bool.or_eq_true] at h
      obtain ⟨⟨h1, h2⟩, h3⟩ := h
      rcases h3 with (h3 | h3) | h3 <;>
        obtain ⟨t, ht⟩ := (leadsWith_iff_append _ _).1 h3
      · exact ⟨String.mk ('P' :: 'r' :: 'o' :: 'b' :: d1 :: d2 :: '.' :: "in.txt".data),
          t, by simp [specExactCqName, h1, h2], by rw [heq, ht]; rfl⟩
      · exact ⟨String.mk ('P' :: 'r' :: 'o' :: 'b' :: d1 :: d2 :: '.' :: "out.txt".data),
          t, by simp [specExactCqName, h1, h2], by rw [heq, ht]; rfl⟩
      · exact ⟨String.mk ('P' :: 'r' :: 'o' :: 'b' :: d1 :: d2 :: '.' :: "py".data),
          t, by simp [specExactCqName, h1, h2], by rw [heq, ht]; rfl⟩
    case _ =>
      exact absurd h (by simp)
  · rintro ⟨g, t, hg, hf⟩
    unfold specExactCqName at hg
    split at hg
    case _ d1 d2 rest heq =>
      simp only [Bool.and_eq_true, Bool.or_eq_true, decide_eq_true_eq] at hg
      obtain ⟨⟨h1, h2⟩, h3⟩ := hg
      unfold cqRegexAccepts
      rw [hf, heq]
      rcases h3 with (rfl | rfl) | rfl <;>
        simp only [List.cons_append, Bool.and_eq_true, Bool.or_eq_true, h1, h2,
          true_and]
      · exact Or.inl (Or.inl (leadsWith_append_self "in.txt".data t))
      · exact Or.inl (Or.inr (leadsWith_append_self "out.txt".data t))
      · exact Or.inr (leadsWith_append_self "py".data t)
    case _ =>
      exact absurd hg (by simp)

/-- One grouping insertion only ever stores the inserted file or files
already stored. -/
theorem groupIns_pred (P : String → Prop) (g : List (Nat × List String))
    (n : Nat) (f0 : String)
    (hg : ∀ p ∈ g, ∀ f ∈ p.2, P f) (hf0 : P f0) :
    ∀ p ∈ groupIns g n f0, ∀ f ∈ p.2, P f := by
  intro p hp f hf
  unfold groupIns at hp
  split at hp
  · rw [List.mem_map] at hp
    obtain ⟨q, hq, rfl⟩ := hp
    by_cases h : q.1 = n
    · rw [if_pos h] at hf
      rcases List.mem_append.1 hf with hf2 | hf2
      · exact hg q hq f hf2
      · rw [List.mem_singleton] at hf2
        subst hf2
        exact hf0
    · rw [if_neg h] at hf
      exact hg q hq f hf
  · rcases List.mem_append.1 hp with h | h
    · exact hg p h f hf
    · rw [List.mem_singleton] at h
      subst h
      rw [List.mem_singleton] at hf
      subst hf
      exact hf0

/-- Every file stored by the grouping fold comes from the input list (or
the seed), whatever keys parse. -/
theorem groupM_pred (P : String → Prop) :
    ∀ (files : List String) (g0 grouped : List (Nat × List String)),
      (∀ p ∈ g0, ∀ f ∈ p.2, P f) → (∀ f ∈ files, P f) →
      (files.foldlM (fun g f => do
        let n ← fileKey f
        pure (groupIns g n f)) g0 : Except PyError _) = Except.ok grouped →
      ∀ p ∈ grouped, ∀ f ∈ p.2, P f := by
  intro files
  induction files with
  | nil =>
    intro g0 grouped hg _ heq
    have h2 : g0 = grouped := by
      have h3 : (Except.ok g0 : Except PyError _) = Except.ok grouped := heq
      injection h3
    subst h2
    exact hg
  | cons f fs ih =>
    intro g0 grouped hg hfs heq
    rw [List.foldlM_cons] at heq
    cases hk : fileKey f with
    | error e =>
      rw [hk] at heq
      exact Except.noConfusion
        (show (Except.error e : Except PyError (List (Nat × List String))) =
          Except.ok grouped from heq)
    | ok n =>
      rw [hk] at heq
      exact ih (groupIns g0 n f) grouped
        (groupIns_pred P g0 n f hg (hfs f (List.mem_cons_self _ _)))
        (fun x hx => hfs x (List.mem_cons_of_mem _ hx)) heq

/-- C10: any triple handed to the Verifier by the pipeline (`main`:
discovery of the working directory, grouping, test creation) binds bare
filenames only — `os.listdir` entries contain no slash — so the directory
components compared on line 198 are both empty and the temporary-directory
staging branch of `check_solution` is never taken. -/
theorem C10_pipeline_never_stages (pathExists pathIsDir : Bool)
    (listing : List String) (tests : List (String × List String))
    (hslash : ∀ f ∈ listing, ∀ c ∈ f.data, c ≠ '/')
    (hrun : mainTests pathExists pathIsDir listing = Except.ok tests) :
    ∀ t ∈ tests, ∀ f ∈ t.2, dirname f = "" ∧
      ∀ g ∈ t.2, stagingTaken f g = false := by
  unfold mainTests at hrun
  cases hg : get_cq_files pathExists pathIsDir listing with
  | error e =>
    rw [hg] at hrun
    exact Except.noConfusion
      (show (Except.error e : Except PyError (List (String × List String))) =
        Except.ok tests from hrun)
  | ok files =>
    rw [hg] at hrun
    have hrun2 : (do
        let grouped ← group_cq_files files
        pure (create_test_funcs grouped) : Except PyError _) = Except.ok tests :=
      hrun
    have hsub : ∀ f ∈ files, f ∈ listing := by
      unfold get_cq_files at hg
      split at hg
      · exact Except.noConfusion hg
      · have h2 : listing.filter cqRegexAccepts = files := by injection hg
        intro f hf
        rw [← h2] at hf
        exact (List.mem_filter.1 hf).1
    cases hgr : group_cq_files files with
    | error e =>
      have hgr2 : group_cq_files files = Except.error e := hgr
      rw [hgr2] at hrun2
      exact Except.noConfusion
        (show (Except.error e : Except PyError (List (String × List String))) =
          Except.ok tests from hrun2)
    | ok grouped =>
      have hstored : ∀ p ∈ grouped, ∀ f ∈ p.2, ∀ c ∈ f.data, c ≠ '/' :=
        groupM_pred (fun f => ∀ c ∈ f.data, c ≠ '/') files [] grouped
          (by simp) (fun f hf => hslash f (hsub f hf)) hgr
      have hgr2 : group_cq_files files = Except.ok grouped := hgr
      rw [hgr2] at hrun2
      have htests : create_test_funcs grouped = tests := by
        have h3 : (Except.ok (create_test_funcs grouped) : Except PyError _) =
            Except.ok tests := hrun2
        injection h3
      intro t ht f hf
      rw [← htests] at ht
      unfold create_test_funcs at ht
      rw [List.mem_filterMap] at ht
      obtain ⟨p, hp, hpt⟩ := ht
      have hlen : p.2.length = 3 ∧ t = ("test_prob" ++ pad2 p.1, pySorted p.2) := by
        by_cases h3 : p.2.length = 3
        · rw [if_pos h3] at hpt
          injection hpt with hpt
          exact ⟨h3, hpt.symm⟩
        · rw [if_neg h3] at hpt
          exact Option.noConfusion hpt
      have hOfSorted : ∀ x ∈ t.2, ∀ c ∈ x.data, c ≠ '/' := by
        intro x hx
        rw [hlen.2] at hx
        have hx2 : x ∈ p.2 :=
          (List.perm_insertionSort (fun a b => pyStrLeB a b = true) p.2).mem_iff.1 hx
        exact hstored p hp x hx2
      refine ⟨dirname_eq_empty (hOfSorted f hf), ?_⟩
      intro g hgm
      unfold stagingTaken
      rw [dirname_eq_empty (hOfSorted f hf), dirname_eq_empty (hOfSorted g hgm)]
      rfl

/-- C10 at a concrete run: one complete triple in the working directory,
no test input ever triggers staging. -/
theorem C10_pipeline_never_stages_witness :
    (∀ f ∈ ["Prob03.in.txt", "Prob03.out.txt", "Prob03.py"],
      ∀ c ∈ f.data, c ≠ '/') ∧
    mainTests true true ["Prob03.in.txt", "Prob03.out.txt", "Prob03.py"] =
      Except.ok [("test_prob03",
        ["Prob03.in.txt", "Prob03.out.txt", "Prob03.py"])] ∧
    ∀ t ∈ [(("test_prob03" : String),
        ["Prob03.in.txt", "Prob03.out.txt", "Prob03.py"])],
      ∀ f ∈ t.2, dirname f = "" ∧ ∀ g ∈ t.2, stagingTaken f g = false :=
  ⟨by decide, by rfl,
    C10_pipeline_never_stages true true
      ["Prob03.in.txt", "Prob03.out.txt", "Prob03.py"]
      [("test_prob03", ["Prob03.in.txt", "Prob03.out.txt", "Prob03.py"])]
      (by decide) (by rfl)⟩

end CQ
